import Mathlib

/-!
Verification of the kagent workflow-aggregation core.

This file gives a shallow embedding, in Lean 4, of the Python modules

  * `kagent/adk/workflow/state.py`     (WorkflowState, WorkflowStateManager)
  * `kagent/adk/workflow/injection.py` (inject_state_keys, validate_unique_output_keys)
  * `kagent/adk/agents/parallel.py`    (KAgentParallelAgent, keyed-aggregation mode)

and proves / refutes the specification claims about them.  Python `dict`s are
embedded as insertion-ordered association lists with unique keys, `datetime.now`
as an explicit `now : Nat` argument, exceptions as `Except`, and the
cooperative asyncio interleaving of the fan-out as a fold over an arbitrary
settlement order (every state mutation in the source happens inside the
single asyncio lock of the manager, hence is atomic with respect to the
other siblings).
-/

set_option maxRecDepth 4000

/-! ## Python `dict` model (insertion-ordered association list) -/

/-- Lookup in a Python dict: the value stored under `k`, if any. -/
def dictLookup : List (String × String) → String → Option String
  | [], _ => none
  | p :: rest, k => if p.1 = k then some p.2 else dictLookup rest k

/-- Python `d[k] = v`: replace the value in place if `k` is present
(keeping its insertion position), otherwise append a new entry. -/
def dictSet : List (String × String) → String → String → List (String × String)
  | [], k, v => [(k, v)]
  | p :: rest, k, v => if p.1 = k then (k, v) :: rest else p :: dictSet rest k v

/-- Python `d.update(other)`: set every entry of `other` in order. -/
def dictUpdate (d other : List (String × String)) : List (String × String) :=
  other.foldl (fun acc p => dictSet acc p.1 p.2) d

theorem dictLookup_set_self (d : List (String × String)) (k v : String) :
    dictLookup (dictSet d k v) k = some v := by
  induction d with
  | nil => simp [dictSet, dictLookup]
  | cons p rest ih =>
      by_cases h : p.1 = k
      · simp [dictSet, dictLookup, h]
      · simp [dictSet, dictLookup, h, ih]

theorem dictLookup_set_ne (d : List (String × String)) (k v k2 : String) (h : k2 ≠ k) :
    dictLookup (dictSet d k v) k2 = dictLookup d k2 := by
  induction d with
  | nil => simp [dictSet, dictLookup, Ne.symm h]
  | cons p rest ih =>
      by_cases hp : p.1 = k
      · subst hp
        simp [dictSet, dictLookup, Ne.symm h, h]
      · by_cases hp2 : p.1 = k2 <;> simp [dictSet, dictLookup, hp, hp2, ih, h]

theorem dictSet_of_absent (d : List (String × String)) (k v : String)
    (h : dictLookup d k = none) : dictSet d k v = d ++ [(k, v)] := by
  induction d with
  | nil => simp [dictSet]
  | cons p rest ih =>
      by_cases hp : p.1 = k
      · simp [dictLookup, hp] at h
      · simp [dictLookup, hp] at h
        simp [dictSet, hp, ih h]

theorem dictLookup_append_right (d d2 : List (String × String)) (k : String)
    (h : dictLookup d k = none) : dictLookup (d ++ d2) k = dictLookup d2 k := by
  induction d with
  | nil => simp
  | cons p rest ih =>
      by_cases hp : p.1 = k
      · simp [dictLookup, hp] at h
      · simp [dictLookup, hp] at h ⊢
        exact ih h

/-! ## `workflow/state.py` : data model -/

/-- `WorkflowStatus` enum from `state.py`. -/
inductive WorkflowStatus where
  | running
  | completed
  | failed
  | cancelled
deriving DecidableEq, Repr

/-- `SubAgentExecution` record from `state.py` (timestamps as `Nat` ticks). -/
structure SubAgentExecution where
  index : Nat
  agent_name : String
  agent_namespace : String
  session_id : String
  output_key : Option String
  started_at : Nat
  completed_at : Option Nat
  status : String
  output_size_bytes : Nat
  error : Option String
  completion_order : Option Nat
deriving DecidableEq, Repr

/-- `WorkflowState` from `state.py`.  The Python field `namespace` is a Lean
keyword and is rendered `namespace_`. -/
structure WorkflowState where
  workflow_session_id : String
  user_id : String
  agent_name : String
  namespace_ : String
  state_data : List (String × String)
  sub_agent_executions : List SubAgentExecution
  status : WorkflowStatus
  error_message : Option String
  created_at : Nat
  updated_at : Nat
  completed_at : Option Nat
deriving DecidableEq, Repr

/-- The default `max_size_bytes` of `WorkflowState.set_output` (10 MiB). -/
def defaultMaxSize : Nat := 10 * 1024 * 1024

/-- A single-quote character, used when rebuilding the Python error strings. -/
def sqStr : String := (Char.ofNat 39).toString

/-- `WorkflowState.get_output`. -/
def WorkflowState.get_output (ws : WorkflowState) (key : String) : Option String :=
  dictLookup ws.state_data key

/-- `WorkflowState.set_output`: reject (raise `ValueError`) if the UTF-8
encoding of `value` is strictly larger than `max_size_bytes`; otherwise store
the value and bump `updated_at` to `now`. -/
def WorkflowState.set_output (ws : WorkflowState) (key value : String) (now : Nat)
    (max_size_bytes : Nat) : Except String WorkflowState :=
  let value_bytes := value.utf8ByteSize
  if value_bytes > max_size_bytes then
    .error ("Output value for key " ++ sqStr ++ key ++ sqStr ++ " exceeds maximum size (" ++
      toString value_bytes ++ " > " ++ toString max_size_bytes ++ " bytes)")
  else
    .ok { ws with state_data := dictSet ws.state_data key value, updated_at := now }

/-- `WorkflowState.add_execution`: append a record and bump `updated_at`. -/
def WorkflowState.add_execution (ws : WorkflowState) (execution : SubAgentExecution)
    (now : Nat) : WorkflowState :=
  { ws with sub_agent_executions := ws.sub_agent_executions ++ [execution],
            updated_at := now }

/-- `WorkflowState.mark_completed`. -/
def WorkflowState.mark_completed (ws : WorkflowState) (now : Nat) : WorkflowState :=
  { ws with status := .completed, completed_at := some now, updated_at := now }

/-- `WorkflowState.mark_failed`. -/
def WorkflowState.mark_failed (ws : WorkflowState) (error_message : String)
    (now : Nat) : WorkflowState :=
  { ws with status := .failed, error_message := some error_message,
            completed_at := some now, updated_at := now }

/-! ## `workflow/state.py` : WorkflowStateManager -/

/-- The `_cache` field of the manager: workflow session id to `WorkflowState`. -/
abbrev ManagerCache := List (String × WorkflowState)

/-- Cache lookup (`self._cache.get(workflow_session_id)`). -/
def cacheLookup : ManagerCache → String → Option WorkflowState
  | [], _ => none
  | p :: rest, k => if p.1 = k then some p.2 else cacheLookup rest k

/-- Cache write-back of a mutated `WorkflowState` (in Python the object is
mutated in place; in this value embedding the entry is replaced). -/
def cacheSet : ManagerCache → String → WorkflowState → ManagerCache
  | [], k, v => [(k, v)]
  | p :: rest, k, v => if p.1 = k then (k, v) :: rest else p :: cacheSet rest k v

/-- `WorkflowStateManager.create_workflow`. -/
def create_workflow (cache : ManagerCache) (workflow_session_id user_id agent_name
    namespace_ : String) (now : Nat) : WorkflowState × ManagerCache :=
  let ws : WorkflowState :=
    { workflow_session_id := workflow_session_id
      user_id := user_id
      agent_name := agent_name
      namespace_ := namespace_
      state_data := []
      sub_agent_executions := []
      status := .running
      error_message := none
      created_at := now
      updated_at := now
      completed_at := none }
  (ws, cacheSet cache workflow_session_id ws)

/-- `WorkflowStateManager.update_output_concurrent` — the locked write path.
Under the lock it looks the workflow up (raising `KeyError` when absent) and
calls `set_output` with the default size cap.  The result pairs the outcome
with the cache the caller observes afterwards: on an exception the cache is
untouched. -/
def update_output_concurrent (cache : ManagerCache) (workflow_session_id key value : String)
    (now : Nat) : Except String Unit × ManagerCache :=
  match cacheLookup cache workflow_session_id with
  | none =>
      (.error ("KeyError: Workflow with session ID " ++ sqStr ++ workflow_session_id ++ sqStr ++
        " not found"), cache)
  | some ws =>
      match ws.set_output key value now defaultMaxSize with
      | .error e => (.error e, cache)
      | .ok ws2 => (.ok (), cacheSet cache workflow_session_id ws2)

/-- `WorkflowStateManager.get_outputs` at the value level: a copy of
`state_data` (`ValueError` when the workflow is unknown). -/
def get_outputs (cache : ManagerCache) (workflow_session_id : String) :
    Except String (List (String × String)) :=
  match cacheLookup cache workflow_session_id with
  | none =>
      .error ("Workflow with session ID " ++ sqStr ++ workflow_session_id ++ sqStr ++ " not found")
  | some ws => .ok ws.state_data

/-! ## Claim C1: the size cap is checked before any mutation -/

theorem cacheLookup_set_self (c : ManagerCache) (k : String) (v : WorkflowState) :
    cacheLookup (cacheSet c k v) k = some v := by
  induction c with
  | nil => simp [cacheSet, cacheLookup]
  | cons p rest ih =>
      by_cases h : p.1 = k
      · simp [cacheSet, cacheLookup, h]
      · simp [cacheSet, cacheLookup, h, ih]

/-- Claim C1. For `WorkflowState.set_output` and
`WorkflowStateManager.update_output_concurrent`: a write where the UTF-8
encoding of the value exceeds the cap raises a size-limit error and leaves the state
byte-for-byte unchanged (every entry of `state_data` keeps its value, no entry
is added or removed, `updated_at` is not bumped), while a write at or under
the cap stores the value under the key and bumps `updated_at`.  The default
cap is 10*1024*1024 bytes. -/
theorem c1_size_cap_atomic_rejection (cache : ManagerCache) (wsid : String)
    (ws : WorkflowState) (k v : String) (now cap : Nat)
    (hws : cacheLookup cache wsid = some ws) :
    defaultMaxSize = 10 * 1024 * 1024
    ∧ (v.utf8ByteSize > cap → ∃ e, ws.set_output k v now cap = .error e)
    ∧ (v.utf8ByteSize ≤ cap → ∃ ws2, ws.set_output k v now cap = .ok ws2
        ∧ dictLookup ws2.state_data k = some v
        ∧ (∀ k2, k2 ≠ k → dictLookup ws2.state_data k2 = dictLookup ws.state_data k2)
        ∧ ws2.updated_at = now)
    ∧ (v.utf8ByteSize > defaultMaxSize →
        ∃ e, update_output_concurrent cache wsid k v now = (.error e, cache))
    ∧ (v.utf8ByteSize ≤ defaultMaxSize →
        ∃ ws2, (update_output_concurrent cache wsid k v now).1 = .ok ()
          ∧ (update_output_concurrent cache wsid k v now).2 = cacheSet cache wsid ws2
          ∧ dictLookup ws2.state_data k = some v
          ∧ (∀ k2, k2 ≠ k → dictLookup ws2.state_data k2 = dictLookup ws.state_data k2)
          ∧ ws2.updated_at = now) := by
  refine ⟨rfl, ?_, ?_, ?_, ?_⟩
  · intro hover
    simp [WorkflowState.set_output, hover]
  · intro hunder
    refine ⟨{ ws with state_data := dictSet ws.state_data k v, updated_at := now },
      ?_, ?_, ?_, rfl⟩
    · simp [WorkflowState.set_output, not_lt.mpr hunder]
    · exact dictLookup_set_self _ _ _
    · intro k2 hk2
      exact dictLookup_set_ne _ _ _ _ hk2
  · intro hover
    simp [update_output_concurrent, hws, WorkflowState.set_output, hover]
  · intro hunder
    refine ⟨{ ws with state_data := dictSet ws.state_data k v, updated_at := now },
      ?_, ?_, ?_, ?_, rfl⟩
    · simp [update_output_concurrent, hws, WorkflowState.set_output, not_lt.mpr hunder]
    · simp [update_output_concurrent, hws, WorkflowState.set_output, not_lt.mpr hunder]
    · exact dictLookup_set_self _ _ _
    · intro k2 hk2
      exact dictLookup_set_ne _ _ _ _ hk2

/-- Demonstration workflow state used by concrete witnesses. -/
def wsDemo : WorkflowState :=
  { workflow_session_id := "sess"
    user_id := "u"
    agent_name := "wf"
    namespace_ := "default"
    state_data := [("old_key", "old_value")]
    sub_agent_executions := []
    status := .running
    error_message := none
    created_at := 0
    updated_at := 0
    completed_at := none }

/-- Witness for C1 at a concrete cache and value. -/
theorem c1_size_cap_atomic_rejection_witness :
    defaultMaxSize = 10 * 1024 * 1024
    ∧ ("abc".utf8ByteSize > 2 → ∃ e, wsDemo.set_output "k" "abc" 7 2 = .error e)
    ∧ ("abc".utf8ByteSize ≤ 2 → ∃ ws2, wsDemo.set_output "k" "abc" 7 2 = .ok ws2
        ∧ dictLookup ws2.state_data "k" = some "abc"
        ∧ (∀ k2, k2 ≠ "k" → dictLookup ws2.state_data k2 = dictLookup wsDemo.state_data k2)
        ∧ ws2.updated_at = 7)
    ∧ ("abc".utf8ByteSize > defaultMaxSize →
        ∃ e, update_output_concurrent [("sess", wsDemo)] "sess" "k" "abc" 7 = (.error e, [("sess", wsDemo)]))
    ∧ ("abc".utf8ByteSize ≤ defaultMaxSize →
        ∃ ws2, (update_output_concurrent [("sess", wsDemo)] "sess" "k" "abc" 7).1 = .ok ()
          ∧ (update_output_concurrent [("sess", wsDemo)] "sess" "k" "abc" 7).2
              = cacheSet [("sess", wsDemo)] "sess" ws2
          ∧ dictLookup ws2.state_data "k" = some "abc"
          ∧ (∀ k2, k2 ≠ "k" → dictLookup ws2.state_data k2 = dictLookup wsDemo.state_data k2)
          ∧ ws2.updated_at = 7) :=
  c1_size_cap_atomic_rejection [("sess", wsDemo)] "sess" wsDemo "k" "abc" 7 2 (by decide)

/-! ## `workflow/injection.py` : `inject_state_keys`

The Python function performs `re.sub(r"\x7b([a-zA-Z_][a-zA-Z0-9_]*)\x7d", replace_key, template)`
where `replace_key` raises `ValueError` on the first key missing from `state`.
The template and all values are modelled as `List Char` (Python `str` is a
sequence of characters); the dict is an association list.  `scanStep` is the
regex scan: `none` mode scans for the next `{`; `some acc` mode is inside a
candidate match, `acc` holding the (reversed) identifier characters read so
far.  On a failed candidate the scan restarts exactly where `re` restarts:
at the character that broke the match. -/

/-- `[a-zA-Z_]` — the first character of a placeholder identifier. -/
def identStartChar (c : Char) : Bool :=
  (('a' ≤ c) && (c ≤ 'z')) || (('A' ≤ c) && (c ≤ 'Z')) || (c = '_')

/-- `[a-zA-Z0-9_]` — a later character of a placeholder identifier. -/
def identChar (c : Char) : Bool :=
  identStartChar c || (('0' ≤ c) && (c ≤ '9'))

/-- A valid placeholder identifier: `[a-zA-Z_][a-zA-Z0-9_]*`. -/
def validIdent : List Char → Bool
  | [] => false
  | c :: rest => identStartChar c && rest.all identChar

/-- The snapshot `state` dict of `inject_state_keys`. -/
abbrev PyDict := List (List Char × List Char)

/-- `state[k]` lookup. -/
def pyLookup : PyDict → List Char → Option (List Char)
  | [], _ => none
  | p :: rest, k => if p.1 = k then some p.2 else pyLookup rest k

/-- The single-quote character used by Python `repr`. -/
def squo : Char := Char.ofNat 39

/-- Python `repr` of the `available_keys` list: bracketed, comma-separated,
each key wrapped in single quotes. -/
def keysJoin : List (List Char) → List Char
  | [] => []
  | [k] => squo :: (k ++ [squo])
  | k :: rest => squo :: (k ++ squo :: ',' :: ' ' :: keysJoin rest)

/-- The `ValueError` message raised by `replace_key` for a missing `key`:
`State key <key> not found. Available keys: <list repr>`, the key and each
available key wrapped in single quotes. -/
def mkErr (key : List Char) (st : PyDict) : List Char :=
  "State key ".data ++ squo :: (key ++ squo :: (" not found. Available keys: ".data ++
    ('[' :: (keysJoin (st.map (·.1)) ++ [']']))))

/-- The regex scan of `re.sub` with the `replace_key` callback.  Mode `none`:
copying literal text, looking for `{`.  Mode `some acc`: inside a candidate
placeholder whose identifier characters so far are `acc` (reversed). -/
def scanStep (st : PyDict) : Option (List Char) → List Char → Except (List Char) (List Char)
  | none, [] => .ok []
  | none, c :: rest =>
      if c = '{' then scanStep st (some []) rest
      else (fun r => c :: r) <$> scanStep st none rest
  | some acc, [] => .ok ('{' :: acc.reverse)
  | some acc, c :: rest =>
      if (if acc.isEmpty then identStartChar c else identChar c) = true then
        scanStep st (some (c :: acc)) rest
      else if c = '}' ∧ acc ≠ [] then
        match pyLookup st acc.reverse with
        | some v => (fun r => v ++ r) <$> scanStep st none rest
        | none => .error (mkErr acc.reverse st)
      else if c = '{' then
        (fun r => '{' :: (acc.reverse ++ r)) <$> scanStep st (some []) rest
      else
        (fun r => '{' :: (acc.reverse ++ (c :: r))) <$> scanStep st none rest

/-- `inject_state_keys(template, state)`: single-pass placeholder replacement;
`.error` is the `ValueError` for the first missing key. -/
def inject_state_keys (st : PyDict) (template : List Char) : Except (List Char) (List Char) :=
  scanStep st none template

/-- The literal text of a placeholder for identifier `k`. -/
def phOf (k : List Char) : List Char := '{' :: (k ++ ['}'])

/-- `l` contains a well-formed placeholder. -/
def HasPH (l : List Char) : Prop := ∃ k, validIdent k = true ∧ phOf k <:+: l

/-- `l` contains a placeholder whose key is missing from `st`. -/
def HasMissing (st : PyDict) (l : List Char) : Prop :=
  ∃ k, validIdent k = true ∧ phOf k <:+: l ∧ pyLookup st k = none

/-- Decision procedure companion of `HasPH`: scan the identifier body after a
`{` (inside the identifier, a `}` closes the placeholder). -/
def phRest : List Char → Bool
  | [] => false
  | c :: rest => if c = '}' then true else identChar c && phRest rest

/-- After the opening `{`: a placeholder needs an identifier then `}`. -/
def phTail : List Char → Bool
  | [] => false
  | c :: rest => identStartChar c && phRest rest

/-- Does `l` begin with a full placeholder `{ident}`? -/
def isPHStart : List Char → Bool
  | [] => false
  | c :: rest => (c == '{') && phTail rest

/-- Does `l` contain a placeholder anywhere?  (Executable mirror of `HasPH`.) -/
def hasPH (l : List Char) : Bool := l.tails.any isPHStart

example : inject_state_keys [("name".data, "World".data)] "Hello {name}!".data
    = .ok "Hello World!".data := rfl

example : inject_state_keys [("b".data, "B".data)] "\x7ba\x7bb\x7d".data = .ok "\x7baB".data := rfl

example : inject_state_keys [("a".data, "A".data)] "\x7b\x7ba\x7d\x7d".data = .ok "\x7bA\x7d".data := rfl

example : inject_state_keys [] "no placeholders \x7b1x\x7d \x7b\x7d".data
    = .ok "no placeholders \x7b1x\x7d \x7b\x7d".data := rfl

example : inject_state_keys [("generated_code".data, "x".data)] "Review: {code}".data
    = .error (mkErr "code".data [("generated_code".data, "x".data)]) := rfl

example : hasPH "ab {x} c".data = true := by decide
example : hasPH "ab \x7b1x\x7d \x7b\x7d c\x7b".data = false := by decide

/-! ### Placeholder-scan lemmas -/

theorem identStartChar_to_identChar {c : Char} (h : identStartChar c = true) :
    identChar c = true := by
  simp [identChar, h]

theorem identChar_not_lbrace : identChar '{' = false := by decide

theorem identChar_not_rbrace : identChar '}' = false := by decide

theorem validIdent_mem {k : List Char} (hk : validIdent k = true) {c : Char}
    (hc : c ∈ k) : identChar c = true := by
  cases k with
  | nil => cases hc
  | cons c0 rest =>
      simp only [validIdent, Bool.and_eq_true, List.all_eq_true] at hk
      rcases List.mem_cons.mp hc with h | h
      · subst h; exact identStartChar_to_identChar hk.1
      · exact hk.2 c h

theorem validIdent_ne_nil {k : List Char} (hk : validIdent k = true) : k ≠ [] := by
  intro h; subst h; simp [validIdent] at hk

theorem validIdent_append_char {k : List Char} {c : Char} (hk : validIdent k = true)
    (hc : identChar c = true) : validIdent (k ++ [c]) = true := by
  cases k with
  | nil => simp [validIdent] at hk
  | cons c0 rest =>
      simp only [List.cons_append, validIdent, Bool.and_eq_true, List.all_eq_true] at hk ⊢
      refine ⟨hk.1, ?_⟩
      intro d hd
      rcases List.mem_append.mp hd with h | h
      · exact hk.2 d h
      · simp at h; subst h; exact hc

theorem validIdent_singleton {c : Char} (h : identStartChar c = true) :
    validIdent [c] = true := by
  simp [validIdent, h]

theorem hasPH_mono {x y : List Char} (hxy : x <:+: y) : HasPH x → HasPH y :=
  fun ⟨k, hk, hin⟩ => ⟨k, hk, hin.trans hxy⟩

theorem hasMissing_mono {st : PyDict} {x y : List Char} (hxy : x <:+: y) :
    HasMissing st x → HasMissing st y :=
  fun ⟨k, hk, hin, hmiss⟩ => ⟨k, hk, hin.trans hxy, hmiss⟩

theorem HasMissing.toHasPH {st : PyDict} {l : List Char} :
    HasMissing st l → HasPH l :=
  fun ⟨k, hk, hin, _⟩ => ⟨k, hk, hin⟩

/-- A tail is an infix of the cons. -/
theorem infix_of_tail (c : Char) (l : List Char) : l <:+: (c :: l) :=
  ⟨[c], [], by simp⟩

/-- A right part is an infix of the append. -/
theorem infix_of_right (s l : List Char) : l <:+: (s ++ l) :=
  ⟨s, [], by simp⟩

/-- Case analysis of an infix occurrence in a cons cell. -/
theorem seg_cons_cases {x : List Char} {c : Char} {l : List Char}
    (h : x <:+: (c :: l)) : (∃ t, x ++ t = c :: l) ∨ x <:+: l := by
  obtain ⟨s, t, hst⟩ := h
  cases s with
  | nil => exact Or.inl ⟨t, by simpa using hst⟩
  | cons a s2 =>
      right
      refine ⟨s2, t, ?_⟩
      have := hst
      simp only [List.cons_append] at this
      exact (List.cons_eq_cons.mp this).2

/-- An occurrence of `{`-headed text inside `a ++ l`, where `a` has no `{`,
lies inside `l`. -/
theorem seg_skip {a : List Char} {xs l : List Char}
    (ha : ∀ d ∈ a, d ≠ '{') (h : ('{' :: xs) <:+: (a ++ l)) : ('{' :: xs) <:+: l := by
  induction a with
  | nil => simpa using h
  | cons d a2 ih =>
      rcases seg_cons_cases (by simpa using h) with ⟨t, ht⟩ | hin
      · exfalso
        have : '{' = d := by
          have := ht
          simp only [List.cons_append] at this
          exact (List.cons_eq_cons.mp this).1
        exact ha d (List.mem_cons_self d a2) this.symm
      · exact ih (fun d2 hd2 => ha d2 (List.mem_cons_of_mem d hd2)) hin

/-- Splitting `k ++ '}' :: t = a ++ l` when both `k` and `a` consist of
identifier characters (neither contains `}`). -/
theorem seg_ident_split : ∀ (a : List Char) (k t l : List Char),
    (∀ c ∈ a, identChar c = true) → (∀ c ∈ k, identChar c = true) →
    k ++ '}' :: t = a ++ l → ∃ k2, k = a ++ k2 ∧ k2 ++ '}' :: t = l := by
  intro a
  induction a with
  | nil => intro k t l _ _ h; exact ⟨k, by simp, by simpa using h⟩
  | cons c a2 ih =>
      intro k t l ha hk h
      cases k with
      | nil =>
          exfalso
          simp only [List.nil_append, List.cons_append] at h
          have hc : '}' = c := (List.cons_eq_cons.mp h).1
          have : identChar '}' = true := hc ▸ ha c (List.mem_cons_self c a2)
          simp [identChar_not_rbrace] at this
      | cons d k2 =>
          simp only [List.cons_append] at h
          obtain ⟨hdc, hrest⟩ := List.cons_eq_cons.mp h
          subst hdc
          obtain ⟨k3, hk3, hl⟩ := ih k2 t l
            (fun c2 h2 => ha c2 (List.mem_cons_of_mem _ h2))
            (fun c2 h2 => hk c2 (List.mem_cons_of_mem _ h2)) hrest
          exact ⟨k3, by simp [hk3], hl⟩

/-- The scan region described by a scanner mode: in mode `some acc` the text
being processed is the original `'{' :: acc.reverse ++ l`. -/
def region : Option (List Char) → List Char → List Char
  | none, l => l
  | some acc, l => '{' :: (acc.reverse ++ l)

/-- Invariant on the accumulator of mode `some acc`. -/
def ModeOK : Option (List Char) → Prop
  | none => True
  | some acc => acc = [] ∨ validIdent acc.reverse = true

theorem modeOK_push {acc : List Char} {c : Char} (hm : ModeOK (some acc))
    (h1 : (if acc.isEmpty then identStartChar c else identChar c) = true) :
    ModeOK (some (c :: acc)) := by
  cases acc with
  | nil =>
      right
      simpa using validIdent_singleton (by simpa using h1)
  | cons a0 acc2 =>
      right
      rcases hm with h | h
      · exact absurd h (List.cons_ne_nil a0 acc2)
      · have hrw : (c :: a0 :: acc2).reverse = (a0 :: acc2).reverse ++ [c] :=
          List.reverse_cons c (a0 :: acc2)
        rw [hrw]
        exact validIdent_append_char h (by simpa using h1)

theorem accok_chars {acc : List Char} (hm : ModeOK (some acc)) :
    ∀ c ∈ acc.reverse, identChar c = true := by
  rcases hm with h | h
  · subst h; intro c hc; cases hc
  · intro c hc; exact validIdent_mem h hc

/-- Identity of the scan on placeholder-free text: if the region contains no
well-formed placeholder, the scan returns it unchanged. -/
theorem scan_id_aux (st : PyDict) : ∀ n (l : List Char), l.length ≤ n →
    ∀ mode, ModeOK mode → ¬ HasPH (region mode l) →
    scanStep st mode l = .ok (region mode l) := by
  intro n
  induction n with
  | zero =>
      intro l hl mode hm _
      have : l = [] := List.length_eq_zero.mp (Nat.le_zero.mp hl)
      subst this
      cases mode with
      | none => rfl
      | some acc => simp [scanStep, region]
  | succ n ih =>
      intro l hl mode hm hno
      cases l with
      | nil =>
          cases mode with
          | none => rfl
          | some acc => simp [scanStep, region]
      | cons c rest =>
          have hrest : rest.length ≤ n := by
            simpa using Nat.lt_succ_iff.mp (Nat.lt_of_lt_of_le (by simp) hl)
          cases mode with
          | none =>
              by_cases hc : c = '{'
              · subst hc
                have h0 := ih rest hrest (some []) (Or.inl rfl) (by simpa [region] using hno)
                simp only [scanStep, if_pos rfl]
                rw [h0]
                simp [region]
              · have hsub : ¬ HasPH rest := fun h => hno (hasPH_mono (infix_of_tail c rest) h)
                have h0 := ih rest hrest none trivial hsub
                simp only [scanStep]
                rw [if_neg hc, h0]
                simp [region, Except.map]
          | some acc =>
              by_cases h1 : (if acc.isEmpty then identStartChar c else identChar c) = true
              · have hm2 := modeOK_push hm h1
                have harea : region (some (c :: acc)) rest = region (some acc) (c :: rest) := by
                  simp [region, List.append_assoc]
                have h0 := ih rest hrest (some (c :: acc)) hm2 (by rw [harea]; exact hno)
                rw [← harea]
                simp only [scanStep]
                rw [if_pos h1]
                exact h0
              · by_cases h2 : c = '}' ∧ acc ≠ []
                · exfalso
                  obtain ⟨hc, hne⟩ := h2
                  subst hc
                  have hv : validIdent acc.reverse = true := by
                    rcases hm with h | h
                    · exact absurd h hne
                    · exact h
                  refine hno ⟨acc.reverse, hv, [], rest, ?_⟩
                  simp [phOf, region, List.append_assoc]
                · by_cases h3 : c = '{'
                  · subst h3
                    have hsub : ¬ HasPH (region (some []) rest) := by
                      intro h
                      refine hno (hasPH_mono ?_ h)
                      simp only [region, List.reverse_nil, List.nil_append]
                      exact ⟨'{' :: acc.reverse, [], by simp [region, List.append_assoc]⟩
                    have h0 := ih rest hrest (some []) (Or.inl rfl) hsub
                    simp only [scanStep]
                    rw [if_neg h1, if_neg h2, if_pos trivial, h0]
                    simp [region, Except.map]
                  · have hsub : ¬ HasPH rest := by
                      intro h
                      refine hno (hasPH_mono ?_ h)
                      exact ⟨'{' :: (acc.reverse ++ [c]), [], by simp [region, List.append_assoc]⟩
                    have h0 := ih rest hrest none trivial hsub
                    simp only [scanStep]
                    rw [if_neg h1, if_neg h2, if_neg h3, h0]
                    simp [region, Except.map]

/-- Scan identity, stated for `inject_state_keys`. -/
theorem scan_id (st : PyDict) (l : List Char) (hno : ¬ HasPH l) :
    inject_state_keys st l = .ok l :=
  scan_id_aux st l.length l le_rfl none trivial hno

theorem seg_mem {x y : List Char} (h : x <:+: y) {c : Char} (hc : c ∈ x) : c ∈ y := by
  obtain ⟨s, t, hst⟩ := h
  rw [← hst]
  exact List.mem_append.mpr (Or.inl (List.mem_append.mpr (Or.inr hc)))

theorem identChar_ne_lb {c : Char} (h : identChar c = true) : c ≠ '{' := by
  intro heq; subst heq; simp [identChar_not_lbrace] at h

theorem identChar_ne_rb {c : Char} (h : identChar c = true) : c ≠ '}' := by
  intro heq; subst heq; simp [identChar_not_rbrace] at h

/-- No full placeholder fits inside an attempt region with exhausted input. -/
theorem no_ph_attempt_nil {acc : List Char} (hm : ModeOK (some acc)) :
    ¬ HasPH ('{' :: acc.reverse) := by
  rintro ⟨k, hk, hin⟩
  have h1 : '}' ∈ phOf k := by simp [phOf]
  have h2 : '}' ∈ '{' :: acc.reverse := seg_mem hin h1
  rcases List.mem_cons.mp h2 with h | h
  · exact absurd h (by decide)
  · exact absurd (accok_chars hm _ h) (by simp [identChar_not_rbrace])

/-- A missing-key placeholder in `c :: l` with `c ≠ '{'` lies inside `l`. -/
theorem hasMissing_tail {st : PyDict} {c : Char} {l : List Char} (hc : c ≠ '{')
    (h : HasMissing st (c :: l)) : HasMissing st l := by
  obtain ⟨k, hk, hin, hmiss⟩ := h
  rcases seg_cons_cases hin with ⟨t, ht⟩ | hin2
  · exfalso
    simp only [phOf, List.cons_append] at ht
    exact hc ((List.cons_eq_cons.mp ht).1).symm
  · exact ⟨k, hk, hin2, hmiss⟩

/-- Decompose a placeholder occurrence inside an attempt region
`'{' :: acc.reverse ++ d :: rest`, where `d` is the character now being read:
either the occurrence is the head attempt itself (so `k ++ '}' :: t` aligns
with `acc.reverse ++ d :: rest`), or it lies inside `d :: rest`. -/
theorem attempt_split {acc : List Char} {d : Char} {rest k : List Char}
    (hm : ModeOK (some acc)) (hk : validIdent k = true)
    (hin : phOf k <:+: ('{' :: (acc.reverse ++ d :: rest))) :
    (∃ k2 t, k = acc.reverse ++ k2 ∧ k2 ++ '}' :: t = d :: rest) ∨
      phOf k <:+: (d :: rest) := by
  rcases seg_cons_cases hin with ⟨t, ht⟩ | hin2
  · left
    simp only [phOf, List.cons_append] at ht
    have ht2 : k ++ '}' :: t = acc.reverse ++ d :: rest := by
      have := (List.cons_eq_cons.mp ht).2
      simpa [List.append_assoc] using this
    obtain ⟨k2, hk2, hrest⟩ := seg_ident_split acc.reverse k ('}' :: t).tail (d :: rest)
      (accok_chars hm) (fun c2 h2 => validIdent_mem hk h2) (by simpa using ht2)
    exact ⟨k2, t, hk2, hrest⟩
  · right
    exact seg_skip (fun d2 hd2 => identChar_ne_lb (accok_chars hm d2 hd2)) hin2

/-- If the region of the scan contains a placeholder whose key is missing
from `st`, the scan raises. -/
theorem scan_missing_aux (st : PyDict) : ∀ n (l : List Char), l.length ≤ n →
    ∀ mode, ModeOK mode → HasMissing st (region mode l) →
    ∃ e, scanStep st mode l = .error e := by
  intro n
  induction n with
  | zero =>
      intro l hl mode hm hmiss
      have : l = [] := List.length_eq_zero.mp (Nat.le_zero.mp hl)
      subst this
      cases mode with
      | none =>
          exfalso
          obtain ⟨k, _, ⟨s, t, hst⟩, _⟩ := hmiss
          simp [phOf, region] at hst
      | some acc =>
          exact absurd hmiss.toHasPH (by simpa [region] using no_ph_attempt_nil hm)
  | succ n ih =>
      intro l hl mode hm hmiss
      cases l with
      | nil =>
          cases mode with
          | none =>
              exfalso
              obtain ⟨k, _, ⟨s, t, hst⟩, _⟩ := hmiss
              simp [phOf, region] at hst
          | some acc =>
              exact absurd hmiss.toHasPH (by simpa [region] using no_ph_attempt_nil hm)
      | cons c rest =>
          have hrest : rest.length ≤ n := by
            simpa using Nat.lt_succ_iff.mp (Nat.lt_of_lt_of_le (by simp) hl)
          cases mode with
          | none =>
              by_cases hc : c = '{'
              · subst hc
                obtain ⟨e, he⟩ := ih rest hrest (some []) (Or.inl rfl)
                  (by simpa [region] using hmiss)
                refine ⟨e, ?_⟩
                simp only [scanStep, if_pos rfl]
                exact he
              · obtain ⟨e, he⟩ := ih rest hrest none trivial
                  (hasMissing_tail hc (by simpa [region] using hmiss))
                refine ⟨e, ?_⟩
                simp only [scanStep]
                rw [if_neg hc, he]
                rfl
          | some acc =>
              obtain ⟨k, hk, hin, hmk⟩ := hmiss
              by_cases h1 : (if acc.isEmpty then identStartChar c else identChar c) = true
              · have hm2 := modeOK_push hm h1
                have harea : region (some (c :: acc)) rest = region (some acc) (c :: rest) := by
                  simp [region, List.append_assoc]
                obtain ⟨e, he⟩ := ih rest hrest (some (c :: acc)) hm2
                  (by rw [harea]; exact ⟨k, hk, hin, hmk⟩)
                refine ⟨e, ?_⟩
                simp only [scanStep]
                rw [if_pos h1]
                exact he
              · by_cases h2 : c = '}' ∧ acc ≠ []
                · obtain ⟨hc, hne⟩ := h2
                  subst hc
                  have hv : validIdent acc.reverse = true := by
                    rcases hm with h | h
                    · exact absurd h hne
                    · exact h
                  cases hlook : pyLookup st acc.reverse with
                  | none =>
                      refine ⟨mkErr acc.reverse st, ?_⟩
                      simp only [scanStep]
                      rw [if_neg h1, if_pos (And.intro trivial hne), hlook]
                  | some v =>
                      rcases attempt_split hm hk (by simpa [region] using hin) with
                        ⟨k2, t, hk2, hsplit⟩ | hin2
                      · cases k2 with
                        | nil =>
                            exfalso
                            simp only [List.append_nil] at hk2
                            subst hk2
                            rw [hmk] at hlook
                            cases hlook
                        | cons d k22 =>
                            exfalso
                            have hd : d = '}' := (List.cons_eq_cons.mp hsplit).1
                            subst hd
                            have : identChar '}' = true :=
                              validIdent_mem hk (by rw [hk2]; simp)
                            simp [identChar_not_rbrace] at this
                      · obtain ⟨e, he⟩ := ih rest hrest none trivial
                          (hasMissing_tail (by decide) ⟨k, hk, hin2, hmk⟩)
                        refine ⟨e, ?_⟩
                        simp only [scanStep]
                        rw [if_neg h1, if_pos (And.intro trivial hne), hlook, he]
                        rfl
                · by_cases h3 : c = '{'
                  · subst h3
                    rcases attempt_split hm hk (by simpa [region] using hin) with
                      ⟨k2, t, hk2, hsplit⟩ | hin2
                    · exfalso
                      cases k2 with
                      | nil => simp at hsplit
                      | cons d k22 =>
                          have hd : d = '{' := (List.cons_eq_cons.mp hsplit).1
                          subst hd
                          have : identChar '{' = true :=
                            validIdent_mem hk (by rw [hk2]; simp)
                          simp [identChar_not_lbrace] at this
                    · obtain ⟨e, he⟩ := ih rest hrest (some []) (Or.inl rfl)
                        (by
                          refine ⟨k, hk, ?_, hmk⟩
                          simpa [region] using hin2)
                      refine ⟨e, ?_⟩
                      simp only [scanStep]
                      rw [if_neg h1, if_neg h2, if_pos trivial, he]
                      rfl
                  · rcases attempt_split hm hk (by simpa [region] using hin) with
                      ⟨k2, t, hk2, hsplit⟩ | hin2
                    · exfalso
                      cases k2 with
                      | nil =>
                          have hc : ('}' : Char) = c := (List.cons_eq_cons.mp (by simpa using hsplit)).1
                          have hacc : acc = [] := by
                            by_contra hne
                            exact h2 ⟨hc.symm, hne⟩
                          subst hacc
                          simp only [List.reverse_nil, List.nil_append] at hk2
                          exact validIdent_ne_nil hk hk2
                      | cons d k22 =>
                          have hd : d = c := (List.cons_eq_cons.mp hsplit).1
                          subst hd
                          cases hacc : acc with
                          | nil =>
                              subst hacc
                              simp only [List.reverse_nil, List.nil_append] at hk2
                              subst hk2
                              have hstart : identStartChar d = true := by
                                simp only [validIdent, Bool.and_eq_true] at hk
                                exact hk.1
                              exact h1 (by simp [hstart])
                          | cons a0 acc2 =>
                              have : identChar d = true :=
                                validIdent_mem hk (by rw [hk2]; simp)
                              exact h1 (by simp [hacc, this])
                    · obtain ⟨e, he⟩ := ih rest hrest none trivial
                        (hasMissing_tail h3 ⟨k, hk, hin2, hmk⟩)
                      refine ⟨e, ?_⟩
                      simp only [scanStep]
                      rw [if_neg h1, if_neg h2, if_neg h3, he]
                      rfl

theorem except_map_error {α β : Type} {f : α → α} {x : Except β α} {e : β}
    (h : (f <$> x) = .error e) : x = .error e := by
  cases x with
  | ok v => simp [Except.map] at h
  | error e2 => simpa [Except.map] using h

/-- Every error raised by the scan is the `ValueError` of `replace_key`:
`mkErr k st` for some well-formed placeholder `k` of the region whose key is
missing from the state. -/
theorem scan_err_aux (st : PyDict) : ∀ n (l : List Char), l.length ≤ n →
    ∀ mode, ModeOK mode → ∀ e, scanStep st mode l = .error e →
    ∃ k, validIdent k = true ∧ phOf k <:+: region mode l ∧ pyLookup st k = none
      ∧ e = mkErr k st := by
  intro n
  induction n with
  | zero =>
      intro l hl mode hm e he
      have : l = [] := List.length_eq_zero.mp (Nat.le_zero.mp hl)
      subst this
      cases mode with
      | none => simp [scanStep] at he
      | some acc => simp [scanStep] at he
  | succ n ih =>
      intro l hl mode hm e he
      cases l with
      | nil =>
          cases mode with
          | none => simp [scanStep] at he
          | some acc => simp [scanStep] at he
      | cons c rest =>
          have hrest : rest.length ≤ n := by
            simpa using Nat.lt_succ_iff.mp (Nat.lt_of_lt_of_le (by simp) hl)
          cases mode with
          | none =>
              by_cases hc : c = '{'
              · subst hc
                simp only [scanStep, if_pos rfl] at he
                obtain ⟨k, hk, hin, hmk, hE⟩ := ih rest hrest (some []) (Or.inl rfl) e he
                refine ⟨k, hk, ?_, hmk, hE⟩
                simpa [region] using hin
              · simp only [scanStep] at he
                rw [if_neg hc] at he
                obtain ⟨k, hk, hin, hmk, hE⟩ := ih rest hrest none trivial e
                  (except_map_error he)
                exact ⟨k, hk, by simpa [region] using hin.trans (infix_of_tail c rest), hmk, hE⟩
          | some acc =>
              by_cases h1 : (if acc.isEmpty then identStartChar c else identChar c) = true
              · simp only [scanStep] at he
                rw [if_pos h1] at he
                have harea : region (some (c :: acc)) rest = region (some acc) (c :: rest) := by
                  simp [region, List.append_assoc]
                obtain ⟨k, hk, hin, hmk, hE⟩ := ih rest hrest (some (c :: acc))
                  (modeOK_push hm h1) e he
                exact ⟨k, hk, by rw [← harea]; exact hin, hmk, hE⟩
              · by_cases h2 : c = '}' ∧ acc ≠ []
                · obtain ⟨hc, hne⟩ := h2
                  subst hc
                  have hv : validIdent acc.reverse = true := by
                    rcases hm with h | h
                    · exact absurd h hne
                    · exact h
                  simp only [scanStep] at he
                  rw [if_neg h1, if_pos (And.intro trivial hne)] at he
                  cases hlook : pyLookup st acc.reverse with
                  | none =>
                      rw [hlook] at he
                      refine ⟨acc.reverse, hv, ?_, hlook, ?_⟩
                      · exact ⟨[], rest, by simp [phOf, region, List.append_assoc]⟩
                      · cases he; rfl
                  | some v =>
                      rw [hlook] at he
                      obtain ⟨k, hk, hin, hmk, hE⟩ := ih rest hrest none trivial e
                        (except_map_error he)
                      refine ⟨k, hk, ?_, hmk, hE⟩
                      refine hin.trans ?_
                      exact ⟨'{' :: (acc.reverse ++ ['}']), [], by simp [region, List.append_assoc]⟩
                · by_cases h3 : c = '{'
                  · subst h3
                    simp only [scanStep] at he
                    rw [if_neg h1, if_neg h2, if_pos trivial] at he
                    obtain ⟨k, hk, hin, hmk, hE⟩ := ih rest hrest (some []) (Or.inl rfl) e
                      (except_map_error he)
                    refine ⟨k, hk, ?_, hmk, hE⟩
                    refine (show phOf k <:+: ('{' :: rest) by simpa [region] using hin).trans ?_
                    exact ⟨'{' :: acc.reverse, [], by simp [region, List.append_assoc]⟩
                  · simp only [scanStep] at he
                    rw [if_neg h1, if_neg h2, if_neg h3] at he
                    obtain ⟨k, hk, hin, hmk, hE⟩ := ih rest hrest none trivial e
                      (except_map_error he)
                    refine ⟨k, hk, ?_, hmk, hE⟩
                    refine hin.trans ?_
                    exact ⟨'{' :: (acc.reverse ++ [c]), [], by simp [region, List.append_assoc]⟩

/-- Scanning a full placeholder body `ks ++ '}' :: rest` from an attempt whose
accumulator already holds part of a valid identifier resolves the key
`acc.reverse ++ ks`. -/
theorem scan_consume_aux (st : PyDict) : ∀ (ks acc rest : List Char),
    validIdent (acc.reverse ++ ks) = true → (acc.isEmpty = true → ks ≠ []) →
    scanStep st (some acc) (ks ++ '}' :: rest) =
      (match pyLookup st (acc.reverse ++ ks) with
       | some v => (fun r => v ++ r) <$> scanStep st none rest
       | none => .error (mkErr (acc.reverse ++ ks) st)) := by
  intro ks
  induction ks with
  | nil =>
      intro acc rest hval hne
      have hacc : acc ≠ [] := by
        intro h; subst h; exact hne rfl rfl
      have h1 : ¬ ((if acc.isEmpty then identStartChar '}' else identChar '}') = true) := by
        cases acc with
        | nil => exact absurd rfl hacc
        | cons a0 acc2 => simp [identChar_not_rbrace]
      simp only [List.nil_append, List.append_nil]
      simp only [scanStep]
      rw [if_neg h1, if_pos (And.intro trivial hacc)]
  | cons c ks2 ih =>
      intro acc rest hval hne
      have hrw : (c :: acc).reverse ++ ks2 = acc.reverse ++ c :: ks2 := by
        simp [List.append_assoc]
      have h1 : (if acc.isEmpty then identStartChar c else identChar c) = true := by
        cases acc with
        | nil =>
            simp only [List.reverse_nil, List.nil_append] at hval
            simp only [List.isEmpty_nil, if_true]
            simp only [validIdent, Bool.and_eq_true] at hval
            exact hval.1
        | cons a0 acc2 =>
            simp only [List.isEmpty_cons, if_false]
            exact validIdent_mem hval (List.mem_append.mpr (Or.inr (List.mem_cons_self _ _)))
      simp only [List.cons_append]
      simp only [scanStep]
      rw [if_pos h1]
      have := ih (c :: acc) rest (by rw [hrw]; exact hval) (by simp)
      rw [hrw] at this
      exact this

/-- Scanning text that begins with the placeholder of a valid identifier `k`
resolves `k`: if the state holds `k`, its value is inserted verbatim and the
scan continues after the placeholder (never inside the inserted value). -/
theorem scan_ph_head (st : PyDict) (k rest : List Char) (hk : validIdent k = true) :
    scanStep st none (phOf k ++ rest) =
      (match pyLookup st k with
       | some v => (fun r => v ++ r) <$> scanStep st none rest
       | none => .error (mkErr k st)) := by
  have hsh : phOf k ++ rest = '{' :: (k ++ '}' :: rest) := by
    simp [phOf, List.append_assoc]
  rw [hsh]
  simp only [scanStep, if_pos rfl]
  have := scan_consume_aux st k [] rest (by simpa using hk)
    (fun _ => validIdent_ne_nil hk)
  simpa using this

/-- Placeholder-free text before a `{` is copied verbatim and the scan
continues at that `{`. -/
theorem scan_copy_aux (st : PyDict) : ∀ (m xs : List Char) mode, ModeOK mode →
    ¬ HasPH (region mode m) →
    scanStep st mode (m ++ '{' :: xs) =
      (fun r => region mode m ++ r) <$> scanStep st (some []) xs := by
  intro m
  induction m with
  | nil =>
      intro xs mode hm _
      cases mode with
      | none =>
          simp only [List.nil_append, region]
          simp only [scanStep, if_pos rfl]
          cases hx : scanStep st (some []) xs <;> simp [hx, Except.map]
      | some acc =>
          have h1 : ¬ ((if acc.isEmpty then identStartChar '{' else identChar '{') = true) := by
            cases acc <;> simp [identStartChar, identChar]
          have h2 : ¬ ('{' = '}' ∧ acc ≠ []) := by simp
          simp only [List.nil_append]
          simp only [scanStep]
          rw [if_neg h1, if_neg h2, if_pos trivial]
          cases hx : scanStep st (some []) xs <;> simp [hx, Except.map, region]
  | cons c m2 ih =>
      intro xs mode hm hno
      cases mode with
      | none =>
          by_cases hc : c = '{'
          · subst hc
            simp only [List.cons_append]
            simp only [scanStep, if_pos rfl]
            have := ih xs (some []) (Or.inl rfl) (by simpa [region] using hno)
            rw [this]
            cases hx : scanStep st (some []) xs <;> simp [hx, Except.map, region]
          · simp only [List.cons_append]
            simp only [scanStep]
            rw [if_neg hc]
            have hsub : ¬ HasPH m2 := fun h =>
              hno (by simpa [region] using hasPH_mono (infix_of_tail c m2) h)
            rw [ih xs none trivial (by simpa [region] using hsub)]
            cases hx : scanStep st (some []) xs <;> simp [hx, Except.map, region]
      | some acc =>
          by_cases h1 : (if acc.isEmpty then identStartChar c else identChar c) = true
          · have harea : region (some (c :: acc)) m2 = region (some acc) (c :: m2) := by
              simp [region, List.append_assoc]
            simp only [List.cons_append]
            simp only [scanStep]
            rw [if_pos h1]
            have := ih xs (some (c :: acc)) (modeOK_push hm h1) (by rw [harea]; exact hno)
            rw [this, harea]
          · by_cases h2 : c = '}' ∧ acc ≠ []
            · exfalso
              obtain ⟨hc, hne⟩ := h2
              subst hc
              have hv : validIdent acc.reverse = true := by
                rcases hm with h | h
                · exact absurd h hne
                · exact h
              refine hno ⟨acc.reverse, hv, [], m2, ?_⟩
              simp [phOf, region, List.append_assoc]
            · by_cases h3 : c = '{'
              · subst h3
                simp only [List.cons_append]
                simp only [scanStep]
                rw [if_neg h1, if_neg h2, if_pos trivial]
                have hsub : ¬ HasPH (region (some []) m2) := by
                  intro h
                  refine hno (hasPH_mono ?_ h)
                  simp only [region, List.reverse_nil, List.nil_append]
                  exact ⟨'{' :: acc.reverse, [], by simp [region, List.append_assoc]⟩
                rw [ih xs (some []) (Or.inl rfl) hsub]
                cases hx : scanStep st (some []) xs <;>
                  simp [hx, Except.map, region, List.append_assoc]
              · simp only [List.cons_append]
                simp only [scanStep]
                rw [if_neg h1, if_neg h2, if_neg h3]
                have hsub : ¬ HasPH m2 := by
                  intro h
                  refine hno (hasPH_mono ?_ h)
                  exact ⟨'{' :: (acc.reverse ++ [c]), [], by simp [region, List.append_assoc]⟩
                rw [ih xs none trivial (by simpa [region] using hsub)]
                cases hx : scanStep st (some []) xs <;>
                  simp [hx, Except.map, region, List.append_assoc]

theorem phRest_iff (r : List Char) : phRest r = true ↔
    ∃ k t, r = k ++ '}' :: t ∧ k.all identChar = true := by
  induction r with
  | nil =>
      constructor
      · intro h; simp [phRest] at h
      · rintro ⟨k, t, hkt, _⟩
        exact absurd hkt (by simp)
  | cons c rest ih =>
      by_cases hc : c = '}'
      · subst hc
        constructor
        · intro _
          exact ⟨[], rest, by simp, by simp⟩
        · intro _
          simp [phRest]
      · simp only [phRest, if_neg hc, Bool.and_eq_true, ih]
        constructor
        · rintro ⟨hch, k, t, hkt, hall⟩
          refine ⟨c :: k, t, by simp [hkt], ?_⟩
          simp [List.all_cons, hch, hall]
        · rintro ⟨k, t, hkt, hall⟩
          cases k with
          | nil =>
              exfalso
              simp only [List.nil_append] at hkt
              exact hc (List.cons_eq_cons.mp hkt).1
          | cons d k0 =>
              obtain ⟨hdc, hrest⟩ := List.cons_eq_cons.mp hkt
              subst hdc
              simp only [List.all_cons, Bool.and_eq_true] at hall
              exact ⟨hall.1, k0, t, hrest, hall.2⟩

theorem phTail_iff (r : List Char) : phTail r = true ↔
    ∃ k t, r = k ++ '}' :: t ∧ validIdent k = true := by
  cases r with
  | nil =>
      constructor
      · intro h; simp [phTail] at h
      · rintro ⟨k, t, hkt, hv⟩
        cases k with
        | nil => simp [validIdent] at hv
        | cons d k0 => exact absurd hkt (by simp)
  | cons c rest =>
      simp only [phTail, Bool.and_eq_true, phRest_iff]
      constructor
      · rintro ⟨hch, k, t, hkt, hall⟩
        exact ⟨c :: k, t, by simp [hkt], by simp [validIdent, hch, hall]⟩
      · rintro ⟨k, t, hkt, hv⟩
        cases k with
        | nil => simp [validIdent] at hv
        | cons d k0 =>
            obtain ⟨hdc, hrest⟩ := List.cons_eq_cons.mp hkt
            subst hdc
            simp only [validIdent, Bool.and_eq_true] at hv
            exact ⟨hv.1, k0, t, hrest, hv.2⟩

theorem isPHStart_iff (t : List Char) : isPHStart t = true ↔
    ∃ k r2, t = phOf k ++ r2 ∧ validIdent k = true := by
  cases t with
  | nil =>
      constructor
      · intro h; simp [isPHStart] at h
      · rintro ⟨k, r2, hkr, _⟩
        exact absurd hkr (by simp [phOf])
  | cons c rest =>
      simp only [isPHStart, Bool.and_eq_true, beq_iff_eq, phTail_iff]
      constructor
      · rintro ⟨hc, k, t2, ht2, hv⟩
        subst hc
        exact ⟨k, t2, by simp [phOf, ht2, List.append_assoc], hv⟩
      · rintro ⟨k, r2, hkr, hv⟩
        have : c :: rest = '{' :: (k ++ '}' :: r2) := by
          simpa [phOf, List.append_assoc] using hkr
        obtain ⟨hc, hrest⟩ := List.cons_eq_cons.mp this
        exact ⟨hc, k, r2, hrest, hv⟩

/-- The executable placeholder detector agrees with `HasPH`. -/
theorem hasPH_iff (l : List Char) : hasPH l = true ↔ HasPH l := by
  simp only [hasPH, List.any_eq_true, List.mem_tails]
  constructor
  · rintro ⟨t, htl, hstart⟩
    obtain ⟨k, r2, hkr, hv⟩ := (isPHStart_iff t).mp hstart
    obtain ⟨s, hs⟩ := htl
    refine ⟨k, hv, s, r2, ?_⟩
    rw [← hs, hkr]
    simp [List.append_assoc]
  · rintro ⟨k, hv, s, r2, heq⟩
    refine ⟨phOf k ++ r2, ⟨s, ?_⟩, (isPHStart_iff _).mpr ⟨k, r2, rfl, hv⟩⟩
    rw [← heq]
    simp [List.append_assoc]

/-- `mkErr k st` names `k`. -/
theorem mkErr_names_key (k : List Char) (st : PyDict) : k <:+: mkErr k st := by
  refine ⟨"State key ".data ++ [squo], squo :: (" not found. Available keys: ".data ++
    ('[' :: (keysJoin (st.map (·.1)) ++ [']']))), ?_⟩
  simp [mkErr, List.append_assoc]

theorem key_in_join : ∀ (ks : List (List Char)) (k : List Char), k ∈ ks → k <:+: keysJoin ks := by
  intro ks
  induction ks with
  | nil => intro k hk; cases hk
  | cons k0 rest ih =>
      intro k hk
      rcases List.mem_cons.mp hk with h | h
      · subst h
        cases rest with
        | nil => exact ⟨[squo], [squo], by simp [keysJoin]⟩
        | cons r1 r2 =>
            exact ⟨[squo], squo :: ',' :: ' ' :: keysJoin (r1 :: r2), by simp [keysJoin]⟩
      · cases rest with
        | nil => cases h
        | cons r1 r2 =>
            refine (ih k h).trans ?_
            refine ⟨squo :: (k0 ++ [squo, ',', ' ']), [], ?_⟩
            simp [keysJoin, List.append_assoc]

/-- `mkErr k st` lists every key available in the state. -/
theorem mkErr_lists_keys (k : List Char) (st : PyDict) :
    ∀ p ∈ st, p.1 <:+: mkErr k st := by
  intro p hp
  have h1 : p.1 <:+: keysJoin (st.map (·.1)) :=
    key_in_join _ _ (List.mem_map.mpr ⟨p, hp, rfl⟩)
  refine h1.trans ?_
  refine ⟨"State key ".data ++ squo :: (k ++ squo :: (" not found. Available keys: ".data ++ ['['])),
    [']'], ?_⟩
  simp [mkErr, List.append_assoc]

/-! ## Claims C8 and C9 : template substitution -/

/-- State used by the C8 counterexample: one available key `x`. -/
def st8 : PyDict := [("x".data, "1".data)]

/-- Template used by the C8 counterexample: two missing placeholders. -/
def tpl8 : List Char := "{qqq}{zzz}".data

/-- Claim C8, counterexample. The claim says that for every placeholder `{k}`
with `k` absent from the state the raised error names `k`.  In `{qqq}{zzz}`
with state `[("x", "1")]` the key `zzz` is a well-formed missing placeholder,
yet the error raised is the one for `qqq`, the first missing key in scan
order, and its message does not contain `zzz`. -/
theorem c8_counterexample :
    (validIdent "zzz".data = true ∧ phOf "zzz".data <:+: tpl8
      ∧ pyLookup st8 "zzz".data = none)
    ∧ ∃ e, inject_state_keys st8 tpl8 = .error e
      ∧ e = mkErr "qqq".data st8 ∧ ¬ ("zzz".data <:+: e) := by
  refine ⟨⟨by decide, by decide, by decide⟩, mkErr "qqq".data st8, rfl, rfl, by decide⟩

/-- Claim C8, amended. If the template contains a placeholder whose key is
missing from the state, `inject_state_keys` raises an error for a missing
placeholder key of this template (the first in scan order): the message names
that key and lists every key available in the state. -/
theorem c8_missing_key_error (st : PyDict) (tpl k : List Char)
    (hk : validIdent k = true) (hin : phOf k <:+: tpl)
    (hmiss : pyLookup st k = none) :
    ∃ k2 e, inject_state_keys st tpl = .error e
      ∧ validIdent k2 = true ∧ phOf k2 <:+: tpl ∧ pyLookup st k2 = none
      ∧ e = mkErr k2 st ∧ k2 <:+: e ∧ ∀ p ∈ st, p.1 <:+: e := by
  obtain ⟨e, he⟩ := scan_missing_aux st tpl.length tpl le_rfl none trivial
    ⟨k, hk, hin, hmiss⟩
  obtain ⟨k2, hk2, hin2, hmiss2, hE⟩ :=
    scan_err_aux st tpl.length tpl le_rfl none trivial e he
  subst hE
  exact ⟨k2, mkErr k2 st, he, hk2, hin2, hmiss2, rfl, mkErr_names_key k2 st,
    mkErr_lists_keys k2 st⟩

/-- Witness for C8 (amended) at the example of the spec:
`substitute("Review: {code}", {"generated_code": "x"})`. -/
theorem c8_missing_key_error_witness :
    ∃ k2 e, inject_state_keys [("generated_code".data, "x".data)] "Review: {code}".data
        = .error e
      ∧ validIdent k2 = true ∧ phOf k2 <:+: "Review: {code}".data
      ∧ pyLookup [("generated_code".data, "x".data)] k2 = none
      ∧ e = mkErr k2 [("generated_code".data, "x".data)]
      ∧ k2 <:+: e ∧ ∀ p ∈ [("generated_code".data, "x".data)], p.1 <:+: e :=
  c8_missing_key_error [("generated_code".data, "x".data)] "Review: {code}".data
    "code".data (by decide) (by decide) (by decide)

/-- Claim C9. Here `inject_state_keys` is a single simultaneous pass over the
original template: a template without placeholders is returned unchanged, and
a placeholder `{k}` bound to an arbitrary value `v` — in particular one that
is itself placeholder-shaped — is replaced by `v` verbatim at every
occurrence, with `v` never re-scanned. -/
theorem c9_single_pass (st : PyDict) (k v mid : List Char)
    (hk : validIdent k = true) (hv : pyLookup st k = some v)
    (hmid : hasPH mid = false) :
    (∀ t, hasPH t = false → inject_state_keys st t = .ok t)
    ∧ inject_state_keys st (phOf k ++ (mid ++ phOf k)) = .ok (v ++ (mid ++ v)) := by
  have noPH : ∀ t : List Char, hasPH t = false → ¬ HasPH t := by
    intro t ht h
    rw [(hasPH_iff t).mpr h] at ht
    cases ht
  constructor
  · intro t ht
    exact scan_id st t (noPH t ht)
  · have h1 := scan_ph_head st k (mid ++ phOf k) hk
    rw [hv] at h1
    have h2 : scanStep st none (mid ++ phOf k)
        = (fun r => mid ++ r) <$> scanStep st (some []) (k ++ ['}']) := by
      have := scan_copy_aux st mid (k ++ ['}']) none trivial
        (by simpa [region] using noPH mid hmid)
      simpa [region, phOf] using this
    have h3 : scanStep st (some []) (k ++ ['}'])
        = (fun r => v ++ r) <$> scanStep st none ([] : List Char) := by
      have := scan_consume_aux st k [] [] (by simpa using hk)
        (fun _ => validIdent_ne_nil hk)
      rw [show k ++ ['}'] = k ++ '}' :: ([] : List Char) from rfl]
      rw [this]
      simp [hv]
    rw [show inject_state_keys st (phOf k ++ (mid ++ phOf k))
        = scanStep st none (phOf k ++ (mid ++ phOf k)) from rfl]
    rw [h1, h2, h3]
    simp [scanStep, Except.map]

/-- Witness for C9: the value bound to `a` is itself placeholder-shaped
(`{b}`, with `b` present in the state) and is still inserted verbatim,
unexpanded, at both occurrences. -/
theorem c9_single_pass_witness :
    (∀ t, hasPH t = false →
      inject_state_keys [("a".data, "\x7bb\x7d".data), ("b".data, "B".data)] t = .ok t)
    ∧ inject_state_keys [("a".data, "\x7bb\x7d".data), ("b".data, "B".data)]
        (phOf "a".data ++ (" and ".data ++ phOf "a".data))
      = .ok ("\x7bb\x7d".data ++ (" and ".data ++ "\x7bb\x7d".data)) :=
  c9_single_pass [("a".data, "\x7bb\x7d".data), ("b".data, "B".data)]
    "a".data "\x7bb\x7d".data " and ".data (by decide) (by decide) (by decide)

/-! ## `agents/parallel.py` : `max_workers` validation and admission semaphore

`KAgentParallelAgent.__init__` validates `max_workers` (1..50) and creates
`asyncio.Semaphore(max_workers)`.  Every sibling body runs inside
`async with self.semaphore`.  The semaphore is modelled as a labelled
transition system over the sibling phases: `acquire` needs a free slot
(counter positive) and moves a queued sibling to running; `release` moves a
running sibling to done and frees its slot. -/

/-- The `max_workers` validation of `KAgentParallelAgent.__init__`. -/
def mkKAgentParallelAgent (max_workers : Int) : Except String Nat :=
  if max_workers < 1 then
    .error ("max_workers must be >= 1, got " ++ toString max_workers)
  else if max_workers > 50 then
    .error ("max_workers must be <= 50, got " ++ toString max_workers)
  else
    .ok max_workers.toNat

/-- Phase of one sibling with respect to the admission gate. -/
inductive SibPhase where
  | queued
  | running
  | done
deriving DecidableEq, Repr

/-- Scheduler state: per-sibling phases plus the semaphore counter. -/
structure SemState where
  phases : List SibPhase
  sem : Nat
deriving DecidableEq, Repr

/-- Start of a fan-out with `n` siblings: all queued, counter `W`. -/
def initSem (n W : Nat) : SemState := ⟨List.replicate n .queued, W⟩

/-- One scheduler step: `asyncio.Semaphore` acquire (only when the counter is
positive — otherwise the sibling waits at the gate) or release. -/
inductive SemStep : SemState → SemState → Prop
  | acquire (s : SemState) (i : Nat) (h : s.phases.get? i = some .queued)
      (hs : 0 < s.sem) : SemStep s ⟨s.phases.set i .running, s.sem - 1⟩
  | release (s : SemState) (i : Nat) (h : s.phases.get? i = some .running) :
      SemStep s ⟨s.phases.set i .done, s.sem + 1⟩

/-- States reachable during one fan-out run. -/
def SemReachable (n W : Nat) (s : SemState) : Prop :=
  Relation.ReflTransGen SemStep (initSem n W) s

/-- The instrumented in-flight counter: number of sibling bodies executing. -/
def inFlight (s : SemState) : Nat := s.phases.count .running

theorem count_set_of_get {l : List SibPhase} : ∀ {i : Nat} {a : SibPhase},
    l.get? i = some a → ∀ b c : SibPhase,
    ((l.set i b).count c) + (if a = c then 1 else 0)
      = l.count c + (if b = c then 1 else 0) := by
  induction l with
  | nil => intro i a h; cases h
  | cons x rest ih =>
      intro i a h b c
      cases i with
      | zero =>
          cases h
          simp only [List.set_cons_zero, List.count_cons]
          by_cases hb : b = c <;> by_cases hx : x = c <;> simp [hb, hx]
      | succ j =>
          simp only [List.get?_cons_succ] at h
          simp only [List.set_cons_succ, List.count_cons]
          have := ih h b c
          by_cases hx : x = c <;> simp [hx] <;> omega

theorem count_running_replicate (n : Nat) :
    (List.replicate n SibPhase.queued).count .running = 0 := by
  induction n with
  | zero => rfl
  | succ m ih => simp [List.replicate_succ, List.count_cons, ih]

/-- Semaphore balance invariant: in-flight siblings plus free slots is
exactly `W` in every reachable state. -/
theorem sem_balance (n W : Nat) (s : SemState) (h : SemReachable n W s) :
    inFlight s + s.sem = W := by
  induction h with
  | refl => simp [inFlight, initSem, count_running_replicate]
  | tail _ hstep ih =>
      cases hstep with
      | acquire i hq hs =>
          have hc := count_set_of_get hq SibPhase.running SibPhase.running
          simp at hc
          simp only [inFlight] at ih ⊢
          omega
      | release i hr =>
          have hc := count_set_of_get hr SibPhase.done SibPhase.running
          simp at hc
          simp only [inFlight] at ih ⊢
          omega

/-- Claim C7. For a fan-out with `max_workers = W`, `1 ≤ W ≤ 50`:
construction-time validation accepts `W`, and in every reachable scheduler
state at most `W` sibling bodies are in flight; when `W` are in flight the
semaphore counter is `0`, so no further sibling can pass the admission gate
until a slot frees. -/
theorem c7_bounded_concurrency (W n : Nat) (s : SemState)
    (hW1 : 1 ≤ W) (hW2 : W ≤ 50) (hreach : SemReachable n W s) :
    mkKAgentParallelAgent (W : Int) = .ok W
    ∧ inFlight s ≤ W
    ∧ (inFlight s = W → s.sem = 0) := by
  have hbal := sem_balance n W s hreach
  refine ⟨?_, by omega, by omega⟩
  have h1 : ¬ ((W : Int) < 1) := by exact_mod_cast Nat.not_lt.mpr hW1
  have h2 : ¬ ((W : Int) > 50) := by exact_mod_cast Nat.not_lt.mpr hW2
  simp [mkKAgentParallelAgent, h1, h2]

/-- Witness for C7: five siblings, `max_workers = 2`, after one admission. -/
theorem c7_bounded_concurrency_witness :
    mkKAgentParallelAgent ((2 : Nat) : Int) = .ok 2
    ∧ inFlight ⟨(List.replicate 5 SibPhase.queued).set 0 .running, 1⟩ ≤ 2
    ∧ (inFlight ⟨(List.replicate 5 SibPhase.queued).set 0 .running, 1⟩ = 2 →
        (⟨(List.replicate 5 SibPhase.queued).set 0 .running, 1⟩ : SemState).sem = 0) :=
  c7_bounded_concurrency 2 5 ⟨(List.replicate 5 SibPhase.queued).set 0 .running, 1⟩
    (by decide) (by decide)
    (Relation.ReflTransGen.single
      (SemStep.acquire (initSem 5 2) 0 (by decide) (by decide)))

/-! ## Claim C10 : `get_outputs` returns an independent snapshot

`WorkflowStateManager.get_outputs` returns `workflow_state.state_data.copy()`.
Value semantics erases Python aliasing, so the copy is modelled with an
explicit object heap: each `state_data` dict lives at a heap address, the
manager maps a workflow id to the address of its (mutable) dict, and
`.copy()` allocates a fresh address holding the same contents. -/

/-- Heap of Python dict objects. -/
abbrev ObjHeap := List (List (String × String))

/-- Dereference an address. -/
def heapGet (h : ObjHeap) (a : Nat) : List (String × String) := h.getD a []

/-- Mutate the dict object at an address. -/
def heapSet (h : ObjHeap) (a : Nat) (d : List (String × String)) : ObjHeap := h.set a d

/-- The cache of the manager, by reference: workflow id to `state_data` address. -/
abbrev CacheRefs := List (String × Nat)

def refLookup : CacheRefs → String → Option Nat
  | [], _ => none
  | p :: rest, k => if p.1 = k then some p.2 else refLookup rest k

/-- `WorkflowStateManager.get_outputs` at the heap level: `ValueError` when
the workflow id is unknown, otherwise allocate `state_data.copy()` at a
fresh address and return that address. -/
def get_outputs_ref (mgr : CacheRefs) (h : ObjHeap) (wsid : String) :
    Except String (Nat × ObjHeap) :=
  match refLookup mgr wsid with
  | none =>
      .error ("Workflow with session ID " ++ sqStr ++ wsid ++ sqStr ++ " not found")
  | some a => .ok (h.length, h ++ [heapGet h a])

/-- Claim C10. For every workflow id present in the store, `get_outputs`
returns a snapshot equal to the `state_data` of the workflow at call time, located
at a fresh address distinct from the stored dict; mutating the returned dict
afterwards leaves the stored `state_data` unchanged. -/
theorem c10_get_outputs_snapshot (mgr : CacheRefs) (h : ObjHeap) (wsid : String)
    (a : Nat) (hfound : refLookup mgr wsid = some a) (ha : a < h.length) :
    ∃ a2 h2, get_outputs_ref mgr h wsid = .ok (a2, h2)
      ∧ heapGet h2 a2 = heapGet h a
      ∧ a2 ≠ a
      ∧ heapGet h2 a = heapGet h a
      ∧ ∀ d, heapGet (heapSet h2 a2 d) a = heapGet h a := by
  refine ⟨h.length, h ++ [heapGet h a], by simp [get_outputs_ref, hfound], ?_, ?_, ?_, ?_⟩
  · simp [heapGet, List.getD, List.getElem?_concat_length]
  · omega
  · simp [heapGet, List.getD, List.getElem?_append_left ha]
  · intro d
    have hne : h.length ≠ a := by omega
    simp [heapGet, heapSet, List.getD, List.getElem?_set_ne hne,
      List.getElem?_append_left ha]

/-- Witness for C10 at a one-workflow store. -/
theorem c10_get_outputs_snapshot_witness :
    ∃ a2 h2, get_outputs_ref [("sess", 0)] [[("k", "v")]] "sess" = .ok (a2, h2)
      ∧ heapGet h2 a2 = heapGet [[("k", "v")]] 0
      ∧ a2 ≠ 0
      ∧ heapGet h2 0 = heapGet [[("k", "v")]] 0
      ∧ ∀ d, heapGet (heapSet h2 a2 d) 0 = heapGet [[("k", "v")]] 0 :=
  c10_get_outputs_snapshot [("sess", 0)] [[("k", "v")]] "sess" 0 (by decide) (by decide)

/-! ## `agents/parallel.py` : keyed-aggregation fan-out

`run_async` in outputKey mode creates one task per sibling
(`_execute_sub_agent_with_output_collection`), gathers them with
`return_exceptions=True`, and settles.  Every workflow-state mutation of a
sibling happens under the single asyncio lock of the manager, so a run is a fold
of per-sibling atomic settle steps over an arbitrary settlement order
(`order` is the order in which sibling bodies finish; the task index `i`
selects the declaration of the sibling and the outcome of its body).  A sibling body
either yields a list of event text parts (success) or raises (failure). -/

/-- A sibling declaration: `sub_agent.name` and its optional `output_key`. -/
structure SubAgentDecl where
  name : String
  output_key : Option String
deriving DecidableEq, Repr

/-- Outcome of the body of one sibling (`sub_agent.run_async` driven to the
end): the text parts collected from its events, or the exception it raised. -/
inductive BodyOutcome where
  | success (texts : List String)
  | failure (err : String)
deriving DecidableEq, Repr

/-- Python truthiness of `sub_agent.output_key` (`None` and `""` are falsy). -/
def truthyKey : Option String → Bool
  | some k => !(k == "")
  | none => false

/-- Static data of one keyed-mode fan-out run. -/
structure RunCfg where
  wsid : String
  user_id : String
  agent_name : String
  namespace_ : String
  parentState : List (String × String)
  decls : List SubAgentDecl
  outcomes : List BodyOutcome
  now : Nat
deriving Repr

def RunCfg.declAt (cfg : RunCfg) (i : Nat) : SubAgentDecl :=
  cfg.decls.getD i { name := "", output_key := none }

def RunCfg.outcomeAt (cfg : RunCfg) (i : Nat) : BodyOutcome :=
  cfg.outcomes.getD i (.failure "")

/-- The fresh `WorkflowState` made by `create_workflow` at fan-out start. -/
def RunCfg.initWS (cfg : RunCfg) : WorkflowState :=
  (create_workflow [] cfg.wsid cfg.user_id cfg.agent_name cfg.namespace_ cfg.now).1

/-- `run_async` keyed mode is selected when any sibling has a truthy key. -/
def keyedMode (cfg : RunCfg) : Bool :=
  cfg.decls.any (fun d => truthyKey d.output_key)

/-- The text fragments a sibling contributes (`collected_output`): only
collected when it has a truthy `output_key`, and only non-empty parts
(`if part.text`). -/
def collectedOf (cfg : RunCfg) (i : Nat) : List String :=
  match cfg.outcomeAt i with
  | .failure _ => []
  | .success texts =>
      if truthyKey (cfg.declAt i).output_key then texts.filter (fun t => !(t == ""))
      else []

/-- `output_value = "\n".join(collected_output)`. -/
def outputValueOf (cfg : RunCfg) (i : Nat) : String :=
  String.intercalate "\n" (collectedOf cfg i)

/-- The child session id: the parent session id, then `-sub-`, then the
sibling index (T013). -/
def RunCfg.subSession (cfg : RunCfg) (i : Nat) : String :=
  cfg.wsid ++ "-sub-" ++ toString i

/-- Whether sibling `i` commits an output entry: truthy key, at least one
non-empty fragment, and the joined value within the size cap. -/
def commits (cfg : RunCfg) (i : Nat) : Bool :=
  match cfg.outcomeAt i with
  | .failure _ => false
  | .success _ =>
      truthyKey (cfg.declAt i).output_key && !(collectedOf cfg i).isEmpty &&
        decide ((outputValueOf cfg i).utf8ByteSize ≤ defaultMaxSize)

/-- The result `asyncio.gather` records for sibling `i`: `none` when its task
returned (success), `some err` when it raised — either because its body
raised or because the store write was rejected by the size cap. -/
def siblingResult (cfg : RunCfg) (i : Nat) : Option String :=
  match cfg.outcomeAt i with
  | .failure e => some e
  | .success _ =>
      if truthyKey (cfg.declAt i).output_key = true ∧ collectedOf cfg i ≠ [] then
        if (outputValueOf cfg i).utf8ByteSize > defaultMaxSize then
          some ("Output value for key " ++ sqStr ++ ((cfg.declAt i).output_key.getD "")
            ++ sqStr ++ " exceeds maximum size ("
            ++ toString (outputValueOf cfg i).utf8ByteSize ++ " > "
            ++ toString defaultMaxSize ++ " bytes)")
        else none
      else none

/-- The execution record sibling `i` appends when it settles as the
`pos`-th sibling overall (`pos` records already in the list): on success the
record carries `completion_order = pos + 1`; on failure (body raised, or the
size-capped write raised) it carries `completion_order = None`. -/
def recAt (cfg : RunCfg) (i pos : Nat) : SubAgentExecution :=
  match cfg.outcomeAt i with
  | .failure e =>
      { index := i, agent_name := (cfg.declAt i).name, agent_namespace := cfg.namespace_,
        session_id := cfg.subSession i, output_key := (cfg.declAt i).output_key,
        started_at := cfg.now, completed_at := some cfg.now, status := "failed",
        output_size_bytes := 0, error := some e, completion_order := none }
  | .success _ =>
      if truthyKey (cfg.declAt i).output_key = true ∧ collectedOf cfg i ≠ [] then
        if (outputValueOf cfg i).utf8ByteSize > defaultMaxSize then
          { index := i, agent_name := (cfg.declAt i).name, agent_namespace := cfg.namespace_,
            session_id := cfg.subSession i, output_key := (cfg.declAt i).output_key,
            started_at := cfg.now, completed_at := some cfg.now, status := "failed",
            output_size_bytes := 0, error := siblingResult cfg i, completion_order := none }
        else
          { index := i, agent_name := (cfg.declAt i).name, agent_namespace := cfg.namespace_,
            session_id := cfg.subSession i, output_key := (cfg.declAt i).output_key,
            started_at := cfg.now, completed_at := some cfg.now, status := "success",
            output_size_bytes := (outputValueOf cfg i).utf8ByteSize, error := none,
            completion_order := some (pos + 1) }
      else
        { index := i, agent_name := (cfg.declAt i).name, agent_namespace := cfg.namespace_,
          session_id := cfg.subSession i, output_key := (cfg.declAt i).output_key,
          started_at := cfg.now, completed_at := some cfg.now, status := "success",
          output_size_bytes := 0, error := none, completion_order := some (pos + 1) }

/-- Settle step of one sibling (the post-body part of
`_execute_sub_agent_with_output_collection`): on success, write the collected
output through the locked store path when the key is truthy and fragments
exist (a `ValueError` there is caught by the surrounding `except` and turns
the sibling into a failure), then append the execution record with
`completion_order = len(executions) + 1`; on failure append a failed record
with no order and re-raise.  Returns the mutated state and the task result. -/
def settleFull (cfg : RunCfg) (ws : WorkflowState) (i : Nat) :
    WorkflowState × Option String :=
  match cfg.outcomeAt i with
  | .failure e =>
      (ws.add_execution (recAt cfg i ws.sub_agent_executions.length) cfg.now, some e)
  | .success _ =>
      if truthyKey (cfg.declAt i).output_key = true ∧ collectedOf cfg i ≠ [] then
        match ws.set_output ((cfg.declAt i).output_key.getD "") (outputValueOf cfg i)
            cfg.now defaultMaxSize with
        | .error e =>
            (ws.add_execution (recAt cfg i ws.sub_agent_executions.length) cfg.now, some e)
        | .ok ws2 =>
            (ws2.add_execution (recAt cfg i ws2.sub_agent_executions.length) cfg.now, none)
      else
        (ws.add_execution (recAt cfg i ws.sub_agent_executions.length) cfg.now, none)

/-- The interleaved run: fold the settle steps over the settlement order. -/
def runFold (cfg : RunCfg) (order : List Nat) : WorkflowState :=
  order.foldl (fun ws i => (settleFull cfg ws i).1) cfg.initWS

/-- `completed_count` of the result loop of `run_async`. -/
def completedCount (cfg : RunCfg) : Nat :=
  ((List.range cfg.decls.length).filter (fun i => (siblingResult cfg i).isNone)).length

/-- `error_count` of the result loop of `run_async`. -/
def errorCount (cfg : RunCfg) : Nat :=
  ((List.range cfg.decls.length).filter (fun i => (siblingResult cfg i).isSome)).length

/-- Events `run_async` yields to its caller after the gather, in task order:
forwarded events of successful siblings, or the structured error event. -/
inductive WEvent where
  | sub (idx : Nat)
  | errorEvent (author text error_code error_message : String)
deriving DecidableEq, Repr

def eventsOf (cfg : RunCfg) : List WEvent :=
  (List.range cfg.decls.length).flatMap (fun i =>
    match siblingResult cfg i with
    | some e => [WEvent.errorEvent cfg.agent_name
        ("Error in sub-agent " ++ (cfg.declAt i).name ++ ": " ++ e) "SUB_AGENT_ERROR" e]
    | none => [WEvent.sub i])

/-- Outcome of a whole keyed-mode `run_async` call. -/
structure RunResult where
  final : WorkflowState
  parent : List (String × String)
  events : List WEvent
  completed_count : Nat
  error_count : Nat
deriving Repr

/-- The keyed-mode `run_async`: settle all siblings, mark the workflow
completed (any success) or failed (none), then merge the outputs into the
parent session state when non-empty. -/
def run_async_keyed (cfg : RunCfg) (order : List Nat) : RunResult :=
  let wsStage := runFold cfg order
  let completed := completedCount cfg
  let wsF :=
    if completed > 0 then wsStage.mark_completed cfg.now
    else wsStage.mark_failed "All parallel agents failed" cfg.now
  let parent2 :=
    if wsF.state_data ≠ [] then dictUpdate cfg.parentState wsF.state_data
    else cfg.parentState
  { final := wsF, parent := parent2, events := eventsOf cfg,
    completed_count := completed, error_count := errorCount cfg }

/-! ## `workflow/injection.py` : `validate_unique_output_keys` -/

/-- The keys collected by `validate_unique_output_keys`: every truthy
`output_key` attribute (`if hasattr(agent, "output_key") and agent.output_key`). -/
def collectKeys (sub_agents : List SubAgentDecl) : List String :=
  sub_agents.filterMap (fun a =>
    match a.output_key with
    | some k => if k = "" then none else some k
    | none => none)

/-- The `duplicates` set built by the `seen`/`duplicates` loop, as a list in
first-duplication order (Python uses a `set`, whose iteration order the
message inherits; a deterministic order is fixed here). -/
def findDuplicates (l : List String) : List String :=
  (l.foldl (fun (p : List String × List String) k =>
    if k ∈ p.1 then (p.1, if k ∈ p.2 then p.2 else p.2 ++ [k])
    else (p.1 ++ [k], p.2)) ([], [])).2

/-- `validate_unique_output_keys`: compare the key list against its set; on
duplicates raise one `ValueError` enumerating every duplicated value. -/
def validate_unique_output_keys (sub_agents : List SubAgentDecl) : Except String Unit :=
  let output_keys := collectKeys sub_agents
  if output_keys.length ≠ output_keys.dedup.length then
    .error ("Duplicate outputKey values found: \x7b" ++
      String.intercalate ", " ((findDuplicates output_keys).map
        (fun k => sqStr ++ k ++ sqStr)) ++ "\x7d")
  else .ok ()

/-- Configuration used by run-model sanity checks and counterexamples. -/
def cfg2 : RunCfg :=
  { wsid := "sess", user_id := "u", agent_name := "wf", namespace_ := "default",
    parentState := [("p", "0")],
    decls := [{ name := "a", output_key := some "ka" },
              { name := "b", output_key := some "kb" }],
    outcomes := [.failure "boom", .success ["out"]],
    now := 3 }

example : (run_async_keyed cfg2 [0, 1]).final.state_data = [("kb", "out")] := by decide
example : (run_async_keyed cfg2 [0, 1]).final.sub_agent_executions.map
    (fun e => e.completion_order) = [none, some 2] := by decide
example : (run_async_keyed cfg2 [0, 1]).final.status = .completed := by decide
example : (run_async_keyed cfg2 [0, 1]).parent = [("p", "0"), ("kb", "out")] := by decide
example : (run_async_keyed cfg2 [0, 1]).events =
    [WEvent.errorEvent "wf" "Error in sub-agent a: boom" "SUB_AGENT_ERROR" "boom",
     WEvent.sub 1] := by decide

/-! ### Run-model lemmas -/

/-- The key sibling `i` writes under (truthy-keyed siblings only). -/
def keyOf (cfg : RunCfg) (i : Nat) : String := (cfg.declAt i).output_key.getD ""

theorem commits_iff (cfg : RunCfg) (i : Nat) : commits cfg i = true ↔
    ((∃ texts, cfg.outcomeAt i = .success texts)
      ∧ truthyKey (cfg.declAt i).output_key = true ∧ collectedOf cfg i ≠ []
      ∧ (outputValueOf cfg i).utf8ByteSize ≤ defaultMaxSize) := by
  cases ho : cfg.outcomeAt i with
  | failure e => simp [commits, ho]
  | success texts =>
      simp only [commits, ho, Bool.and_eq_true, List.isEmpty_iff, decide_eq_true_iff,
        Bool.not_eq_true']
      constructor
      · rintro ⟨⟨ht, hc⟩, hsz⟩
        exact ⟨⟨texts, rfl⟩, ht, by simpa [List.isEmpty_iff] using hc, hsz⟩
      · rintro ⟨_, ht, hc, hsz⟩
        exact ⟨⟨ht, by simpa [List.isEmpty_iff] using hc⟩, hsz⟩

theorem commits_result {cfg : RunCfg} {i : Nat} (h : commits cfg i = true) :
    siblingResult cfg i = none := by
  obtain ⟨⟨texts, ho⟩, ht, hc, hsz⟩ := (commits_iff cfg i).mp h
  simp [siblingResult, ho, ht, hc, Nat.not_lt.mpr hsz]

theorem settle_snd (cfg : RunCfg) (ws : WorkflowState) (i : Nat) :
    (settleFull cfg ws i).2 = siblingResult cfg i := by
  cases ho : cfg.outcomeAt i with
  | failure e => simp [settleFull, siblingResult, ho]
  | success texts =>
      by_cases hw : truthyKey (cfg.declAt i).output_key = true ∧ collectedOf cfg i ≠ []
      · by_cases hsz : (outputValueOf cfg i).utf8ByteSize > defaultMaxSize
        · simp [settleFull, siblingResult, ho, hw, hsz, WorkflowState.set_output]
        · simp [settleFull, siblingResult, ho, hw, hsz, WorkflowState.set_output]
      · simp [settleFull, siblingResult, ho, hw]

theorem settle_execs (cfg : RunCfg) (ws : WorkflowState) (i : Nat) :
    (settleFull cfg ws i).1.sub_agent_executions
      = ws.sub_agent_executions ++ [recAt cfg i ws.sub_agent_executions.length] := by
  cases ho : cfg.outcomeAt i with
  | failure e => simp [settleFull, ho, WorkflowState.add_execution]
  | success texts =>
      by_cases hw : truthyKey (cfg.declAt i).output_key = true ∧ collectedOf cfg i ≠ []
      · by_cases hsz : (outputValueOf cfg i).utf8ByteSize > defaultMaxSize
        · simp [settleFull, ho, hw, hsz, WorkflowState.set_output,
            WorkflowState.add_execution]
        · simp [settleFull, ho, hw, hsz, WorkflowState.set_output,
            WorkflowState.add_execution]
      · simp [settleFull, ho, hw, WorkflowState.add_execution]

theorem settle_status (cfg : RunCfg) (ws : WorkflowState) (i : Nat) :
    (settleFull cfg ws i).1.status = ws.status := by
  cases ho : cfg.outcomeAt i with
  | failure e => simp [settleFull, ho, WorkflowState.add_execution]
  | success texts =>
      by_cases hw : truthyKey (cfg.declAt i).output_key = true ∧ collectedOf cfg i ≠ []
      · by_cases hsz : (outputValueOf cfg i).utf8ByteSize > defaultMaxSize
        · simp [settleFull, ho, hw, hsz, WorkflowState.set_output,
            WorkflowState.add_execution]
        · simp [settleFull, ho, hw, hsz, WorkflowState.set_output,
            WorkflowState.add_execution]
      · simp [settleFull, ho, hw, WorkflowState.add_execution]

theorem settle_state_data (cfg : RunCfg) (ws : WorkflowState) (i : Nat) :
    (settleFull cfg ws i).1.state_data
      = if commits cfg i = true then
          dictSet ws.state_data (keyOf cfg i) (outputValueOf cfg i)
        else ws.state_data := by
  cases ho : cfg.outcomeAt i with
  | failure e => simp [settleFull, ho, WorkflowState.add_execution, commits]
  | success texts =>
      by_cases hw : truthyKey (cfg.declAt i).output_key = true ∧ collectedOf cfg i ≠ []
      · by_cases hsz : (outputValueOf cfg i).utf8ByteSize > defaultMaxSize
        · have hcf : commits cfg i = false := by
            rw [Bool.eq_false_iff]
            intro hc
            exact absurd ((commits_iff cfg i).mp hc).2.2.2 (Nat.not_le.mpr hsz)
          simp [settleFull, ho, hw, hsz, WorkflowState.set_output,
            WorkflowState.add_execution, hcf]
        · have hct : commits cfg i = true :=
            (commits_iff cfg i).mpr ⟨⟨texts, ho⟩, hw.1, hw.2, Nat.not_lt.mp hsz⟩
          simp [settleFull, ho, hw, hsz, WorkflowState.set_output,
            WorkflowState.add_execution, hct, keyOf]
      · have hcf : commits cfg i = false := by
          rw [Bool.eq_false_iff]
          intro hc
          obtain ⟨_, ht, hcol, _⟩ := (commits_iff cfg i).mp hc
          exact hw ⟨ht, hcol⟩
        simp [settleFull, ho, hw, WorkflowState.add_execution, hcf]

/-- Fold of settle steps from an arbitrary intermediate state. -/
def runFoldFrom (cfg : RunCfg) (ws : WorkflowState) (order : List Nat) : WorkflowState :=
  order.foldl (fun w i => (settleFull cfg w i).1) ws

theorem runFold_eq_from (cfg : RunCfg) (order : List Nat) :
    runFold cfg order = runFoldFrom cfg cfg.initWS order := rfl

/-- The execution records appended by settling `order`, starting at list
position `pos`. -/
def mapRecs (cfg : RunCfg) : List Nat → Nat → List SubAgentExecution
  | [], _ => []
  | i :: rest, pos => recAt cfg i pos :: mapRecs cfg rest (pos + 1)

theorem mapRecs_length (cfg : RunCfg) : ∀ (order : List Nat) (pos : Nat),
    (mapRecs cfg order pos).length = order.length := by
  intro order
  induction order with
  | nil => intro pos; rfl
  | cons i rest ih => intro pos; simp [mapRecs, ih]

theorem runFoldFrom_execs (cfg : RunCfg) : ∀ (order : List Nat) (ws : WorkflowState),
    (runFoldFrom cfg ws order).sub_agent_executions
      = ws.sub_agent_executions ++ mapRecs cfg order ws.sub_agent_executions.length := by
  intro order
  induction order with
  | nil => intro ws; simp [runFoldFrom, mapRecs]
  | cons i rest ih =>
      intro ws
      have hstep := settle_execs cfg ws i
      have h1 : runFoldFrom cfg ws (i :: rest)
          = runFoldFrom cfg (settleFull cfg ws i).1 rest := rfl
      rw [h1, ih, hstep]
      simp [mapRecs, List.append_assoc]

theorem runFoldFrom_status (cfg : RunCfg) : ∀ (order : List Nat) (ws : WorkflowState),
    (runFoldFrom cfg ws order).status = ws.status := by
  intro order
  induction order with
  | nil => intro ws; rfl
  | cons i rest ih =>
      intro ws
      have h1 : runFoldFrom cfg ws (i :: rest)
          = runFoldFrom cfg (settleFull cfg ws i).1 rest := rfl
      rw [h1, ih, settle_status]

theorem runFoldFrom_state (cfg : RunCfg) : ∀ (order : List Nat) (ws : WorkflowState),
    (runFoldFrom cfg ws order).state_data
      = (order.filter (fun i => commits cfg i)).foldl
          (fun d i => dictSet d (keyOf cfg i) (outputValueOf cfg i)) ws.state_data := by
  intro order
  induction order with
  | nil => intro ws; rfl
  | cons i rest ih =>
      intro ws
      have h1 : runFoldFrom cfg ws (i :: rest)
          = runFoldFrom cfg (settleFull cfg ws i).1 rest := rfl
      rw [h1, ih, settle_state_data]
      by_cases hc : commits cfg i = true
      · simp [hc, List.filter_cons]
      · simp [hc, List.filter_cons]

theorem foldl_dictSet_absent (cfg : RunCfg) : ∀ (is2 : List Nat)
    (d : List (String × String)) (k : String), (∀ i ∈ is2, keyOf cfg i ≠ k) →
    dictLookup (is2.foldl (fun d i => dictSet d (keyOf cfg i) (outputValueOf cfg i)) d) k
      = dictLookup d k := by
  intro is2
  induction is2 with
  | nil => intro d k _; rfl
  | cons i rest ih =>
      intro d k hk
      have h1 : (i :: rest).foldl (fun d i => dictSet d (keyOf cfg i) (outputValueOf cfg i)) d
          = rest.foldl (fun d i => dictSet d (keyOf cfg i) (outputValueOf cfg i))
              (dictSet d (keyOf cfg i) (outputValueOf cfg i)) := rfl
      rw [h1, ih _ k (fun j hj => hk j (List.mem_cons_of_mem i hj))]
      exact dictLookup_set_ne _ _ _ _
        (fun h => hk i (List.mem_cons_self i rest) h.symm)

theorem foldl_dictSet_found (cfg : RunCfg) : ∀ (is2 : List Nat)
    (d : List (String × String)) (i0 : Nat), i0 ∈ is2 →
    (∀ j ∈ is2, j ≠ i0 → keyOf cfg j ≠ keyOf cfg i0) →
    dictLookup (is2.foldl (fun d i => dictSet d (keyOf cfg i) (outputValueOf cfg i)) d)
        (keyOf cfg i0) = some (outputValueOf cfg i0) := by
  intro is2
  induction is2 with
  | nil => intro d i0 h; cases h
  | cons i rest ih =>
      intro d i0 hmem hk
      have h1 : (i :: rest).foldl (fun d i => dictSet d (keyOf cfg i) (outputValueOf cfg i)) d
          = rest.foldl (fun d i => dictSet d (keyOf cfg i) (outputValueOf cfg i))
              (dictSet d (keyOf cfg i) (outputValueOf cfg i)) := rfl
      rw [h1]
      by_cases hmem2 : i0 ∈ rest
      · exact ih _ i0 hmem2 (fun j hj => hk j (List.mem_cons_of_mem i hj))
      · have hi : i = i0 := by
          rcases List.mem_cons.mp hmem with h | h
          · exact h.symm
          · exact absurd h hmem2
        subst hi
        rw [foldl_dictSet_absent cfg rest _ _
          (fun j hj hkey => hk j (List.mem_cons_of_mem i hj)
            (fun hji => hmem2 (hji ▸ hj)) hkey)]
        exact dictLookup_set_self _ _ _

theorem foldl_dictSet_length (cfg : RunCfg) : ∀ (is2 : List Nat)
    (d : List (String × String)), (∀ i ∈ is2, dictLookup d (keyOf cfg i) = none) →
    (∀ i ∈ is2, ∀ j ∈ is2, i ≠ j → keyOf cfg i ≠ keyOf cfg j) → is2.Nodup →
    (is2.foldl (fun d i => dictSet d (keyOf cfg i) (outputValueOf cfg i)) d).length
      = d.length + is2.length := by
  intro is2
  induction is2 with
  | nil => intro d _ _ _; rfl
  | cons i rest ih =>
      intro d habs hdist hnd
      have h1 : (i :: rest).foldl (fun d i => dictSet d (keyOf cfg i) (outputValueOf cfg i)) d
          = rest.foldl (fun d i => dictSet d (keyOf cfg i) (outputValueOf cfg i))
              (dictSet d (keyOf cfg i) (outputValueOf cfg i)) := rfl
      rw [h1]
      have hset : dictSet d (keyOf cfg i) (outputValueOf cfg i)
          = d ++ [(keyOf cfg i, outputValueOf cfg i)] :=
        dictSet_of_absent _ _ _ (habs i (List.mem_cons_self i rest))
      have hnd2 := (List.nodup_cons.mp hnd)
      have habs2 : ∀ j ∈ rest,
          dictLookup (dictSet d (keyOf cfg i) (outputValueOf cfg i)) (keyOf cfg j) = none := by
        intro j hj
        have hne : keyOf cfg j ≠ keyOf cfg i := by
          intro h
          exact hdist j (List.mem_cons_of_mem i hj) i (List.mem_cons_self i rest)
            (fun hji => hnd2.1 (hji ▸ hj)) h
        rw [dictLookup_set_ne _ _ _ _ hne]
        exact habs j (List.mem_cons_of_mem i hj)
      rw [ih _ habs2 (fun a ha b hb hab =>
        hdist a (List.mem_cons_of_mem i ha) b (List.mem_cons_of_mem i hb) hab) hnd2.2]
      rw [hset]
      simp
      omega

theorem recAt_index (cfg : RunCfg) (i pos : Nat) : (recAt cfg i pos).index = i := by
  cases ho : cfg.outcomeAt i with
  | failure e => simp [recAt, ho]
  | success texts =>
      by_cases hw : truthyKey (cfg.declAt i).output_key = true ∧ collectedOf cfg i ≠ []
      · by_cases hsz : (outputValueOf cfg i).utf8ByteSize > defaultMaxSize
        · simp [recAt, ho, hw, hsz]
        · simp [recAt, ho, hw, hsz]
      · simp [recAt, ho, hw]

theorem recAt_order_status (cfg : RunCfg) (i pos : Nat) :
    (recAt cfg i pos).completion_order
      = if (recAt cfg i pos).status = "success" then some (pos + 1) else none := by
  cases ho : cfg.outcomeAt i with
  | failure e => simp [recAt, ho]
  | success texts =>
      by_cases hw : truthyKey (cfg.declAt i).output_key = true ∧ collectedOf cfg i ≠ []
      · by_cases hsz : (outputValueOf cfg i).utf8ByteSize > defaultMaxSize
        · simp [recAt, ho, hw, hsz]
        · simp [recAt, ho, hw, hsz]
      · simp [recAt, ho, hw]

theorem recAt_order_val (cfg : RunCfg) (i pos x : Nat)
    (h : (recAt cfg i pos).completion_order = some x) : x = pos + 1 := by
  rw [recAt_order_status] at h
  by_cases hs : (recAt cfg i pos).status = "success"
  · rw [if_pos hs] at h
    exact (Option.some.injEq _ _ ▸ h).symm
  · rw [if_neg hs] at h
    cases h

theorem recAt_order_of_success (cfg : RunCfg) (i pos : Nat)
    (h : siblingResult cfg i = none) :
    (recAt cfg i pos).completion_order = some (pos + 1) := by
  cases ho : cfg.outcomeAt i with
  | failure e => simp [siblingResult, ho] at h
  | success texts =>
      by_cases hw : truthyKey (cfg.declAt i).output_key = true ∧ collectedOf cfg i ≠ []
      · by_cases hsz : (outputValueOf cfg i).utf8ByteSize > defaultMaxSize
        · simp [siblingResult, ho, hw, hsz] at h
        · simp [recAt, ho, hw, hsz]
      · simp [recAt, ho, hw]

theorem recAt_of_failure (cfg : RunCfg) (i pos : Nat) (e : String)
    (h : cfg.outcomeAt i = .failure e) :
    (recAt cfg i pos).status = "failed" ∧ (recAt cfg i pos).error = some e
      ∧ (recAt cfg i pos).completion_order = none
      ∧ (recAt cfg i pos).output_key = (cfg.declAt i).output_key := by
  simp [recAt, h]

theorem mapRecs_get (cfg : RunCfg) : ∀ (order : List Nat) (pos p : Nat)
    (h : p < (mapRecs cfg order pos).length),
    (mapRecs cfg order pos).get ⟨p, h⟩ = recAt cfg (order.getD p 0) (pos + p) := by
  intro order
  induction order with
  | nil => intro pos p h; simp [mapRecs] at h
  | cons i rest ih =>
      intro pos p h
      cases p with
      | zero => simp [mapRecs]
      | succ q =>
          have h2 : q < (mapRecs cfg rest (pos + 1)).length := by
            simpa [mapRecs] using h
          have := ih (pos + 1) q h2
          simp only [mapRecs, List.get_cons_succ, List.getD_cons_succ]
          rw [this]
          congr 1
          omega

theorem mapRecs_indices (cfg : RunCfg) : ∀ (order : List Nat) (pos : Nat),
    (mapRecs cfg order pos).map (fun e => e.index) = order := by
  intro order
  induction order with
  | nil => intro pos; rfl
  | cons i rest ih => intro pos; simp [mapRecs, recAt_index, ih]

/-- Non-null completion orders in settle sequence. -/
def ordersOf (l : List SubAgentExecution) : List Nat :=
  l.filterMap (fun e => e.completion_order)

theorem ordersOf_mapRecs_lb (cfg : RunCfg) : ∀ (order : List Nat) (pos : Nat),
    ∀ o ∈ ordersOf (mapRecs cfg order pos), pos + 1 ≤ o := by
  intro order
  induction order with
  | nil => intro pos o h; simp [ordersOf, mapRecs] at h
  | cons i rest ih =>
      intro pos o h
      simp only [ordersOf, mapRecs, List.filterMap_cons] at h
      cases hco : (recAt cfg i pos).completion_order with
      | none =>
          rw [hco] at h
          have := ih (pos + 1) o (by simpa [ordersOf] using h)
          omega
      | some x =>
          rw [hco] at h
          rcases List.mem_cons.mp h with h2 | h2
          · subst h2
            rw [recAt_order_val cfg i pos o hco]
          · have := ih (pos + 1) o (by simpa [ordersOf] using h2)
            omega

theorem ordersOf_mapRecs_nodup (cfg : RunCfg) : ∀ (order : List Nat) (pos : Nat),
    (ordersOf (mapRecs cfg order pos)).Nodup := by
  intro order
  induction order with
  | nil => intro pos; simp [ordersOf, mapRecs]
  | cons i rest ih =>
      intro pos
      simp only [ordersOf, mapRecs, List.filterMap_cons]
      cases hco : (recAt cfg i pos).completion_order with
      | none => exact ih (pos + 1)
      | some x =>
          refine List.nodup_cons.mpr ⟨?_, ih (pos + 1)⟩
          intro hmem
          have hlb := ordersOf_mapRecs_lb cfg rest (pos + 1) x hmem
          have hx := recAt_order_val cfg i pos x hco
          omega

theorem ordersOf_mapRecs_all_success (cfg : RunCfg) : ∀ (order : List Nat) (pos : Nat),
    (∀ i ∈ order, siblingResult cfg i = none) →
    ordersOf (mapRecs cfg order pos) = List.range' (pos + 1) order.length := by
  intro order
  induction order with
  | nil => intro pos _; rfl
  | cons i rest ih =>
      intro pos hsucc
      simp only [ordersOf, mapRecs, List.filterMap_cons,
        recAt_order_of_success cfg i pos (hsucc i (List.mem_cons_self i rest))]
      have hih := ih (pos + 1) (fun j hj => hsucc j (List.mem_cons_of_mem i hj))
      simp only [ordersOf] at hih
      rw [hih]
      simp [List.range'_succ]

theorem run_final_execs (cfg : RunCfg) (order : List Nat) :
    (run_async_keyed cfg order).final.sub_agent_executions = mapRecs cfg order 0 := by
  have h1 := runFoldFrom_execs cfg order cfg.initWS
  have h2 : cfg.initWS.sub_agent_executions = [] := rfl
  rw [h2] at h1
  simp only [List.length_nil, List.nil_append] at h1
  by_cases hc : completedCount cfg > 0 <;>
    simp [run_async_keyed, hc, WorkflowState.mark_completed, WorkflowState.mark_failed,
      runFold_eq_from, h1]

theorem run_final_state (cfg : RunCfg) (order : List Nat) :
    (run_async_keyed cfg order).final.state_data
      = (order.filter (fun i => commits cfg i)).foldl
          (fun d i => dictSet d (keyOf cfg i) (outputValueOf cfg i)) [] := by
  have h1 := runFoldFrom_state cfg order cfg.initWS
  have h2 : cfg.initWS.state_data = [] := rfl
  rw [h2] at h1
  by_cases hc : completedCount cfg > 0 <;>
    simp [run_async_keyed, hc, WorkflowState.mark_completed, WorkflowState.mark_failed,
      runFold_eq_from, h1]

theorem run_final_status (cfg : RunCfg) (order : List Nat) :
    (run_async_keyed cfg order).final.status
      = if completedCount cfg > 0 then WorkflowStatus.completed else WorkflowStatus.failed := by
  by_cases hc : completedCount cfg > 0 <;>
    simp [run_async_keyed, hc, WorkflowState.mark_completed, WorkflowState.mark_failed]

theorem run_parent_eq (cfg : RunCfg) (order : List Nat) :
    (run_async_keyed cfg order).parent
      = if (run_async_keyed cfg order).final.state_data ≠ [] then
          dictUpdate cfg.parentState (run_async_keyed cfg order).final.state_data
        else cfg.parentState := by
  by_cases hc : completedCount cfg > 0 <;>
    simp [run_async_keyed, hc, WorkflowState.mark_completed, WorkflowState.mark_failed]

theorem run_events_eq (cfg : RunCfg) (order : List Nat) :
    (run_async_keyed cfg order).events = eventsOf cfg := rfl

theorem mapRecs_getq (cfg : RunCfg) : ∀ (order : List Nat) (pos p : Nat)
    (e : SubAgentExecution), (mapRecs cfg order pos).get? p = some e →
    e = recAt cfg (order.getD p 0) (pos + p) := by
  intro order
  induction order with
  | nil => intro pos p e h; simp [mapRecs] at h
  | cons i rest ih =>
      intro pos p e h
      cases p with
      | zero =>
          simp [mapRecs] at h
          simp [h.symm]
      | succ q =>
          simp only [mapRecs, List.get?_cons_succ] at h
          have := ih (pos + 1) q e h
          simp only [List.getD_cons_succ]
          rw [this]
          congr 1
          omega

/-! ## Claim C2 : completion orders -/

/-- Claim C2, counterexample. In a run where the first settling sibling fails
and the second succeeds, the sole successful sibling (so `M = 1`) receives
`completion_order = 2`, not `1`: the failed sibling consumed a slot
(`completion_order = len(executions) + 1` counts its record), so the non-null
orders are `{2}`, not `{1, …, M}`. -/
theorem c2_counterexample :
    completedCount cfg2 = 1
    ∧ ordersOf (run_async_keyed cfg2 [0, 1]).final.sub_agent_executions = [2]
    ∧ ¬ (ordersOf (run_async_keyed cfg2 [0, 1]).final.sub_agent_executions).Perm
        (List.range' 1 (completedCount cfg2)) := by
  refine ⟨by decide, by decide, by decide⟩

/-- Claim C2, amended. Non-null completion orders are pairwise distinct and
equal the 1-based positions of `status = "success"` records in the execution
sequence (a failed sibling gets a null order but still consumes a slot, since
the counter is the length of the record list); they form exactly
`{1, …, M}` when every sibling settles successfully. -/
theorem c2_completion_orders (cfg : RunCfg) (order : List Nat) :
    (∀ p e, ((run_async_keyed cfg order).final.sub_agent_executions).get? p = some e →
      e.completion_order = if e.status = "success" then some (p + 1) else none)
    ∧ (ordersOf (run_async_keyed cfg order).final.sub_agent_executions).Nodup
    ∧ ((∀ i ∈ order, siblingResult cfg i = none) →
        ordersOf (run_async_keyed cfg order).final.sub_agent_executions
          = List.range' 1 order.length) := by
  have hex := run_final_execs cfg order
  refine ⟨?_, ?_, ?_⟩
  · intro p e hpe
    rw [hex] at hpe
    have he := mapRecs_getq cfg order 0 p e hpe
    simp only [Nat.zero_add] at he
    rw [he]
    exact recAt_order_status cfg (order.getD p 0) p
  · rw [hex]
    exact ordersOf_mapRecs_nodup cfg order 0
  · intro hsucc
    rw [hex]
    simpa using ordersOf_mapRecs_all_success cfg order 0 hsucc

/-- Witness for C2 (amended), at the mixed failure/success run. -/
theorem c2_completion_orders_witness :
    (∀ p e, ((run_async_keyed cfg2 [0, 1]).final.sub_agent_executions).get? p = some e →
      e.completion_order = if e.status = "success" then some (p + 1) else none)
    ∧ (ordersOf (run_async_keyed cfg2 [0, 1]).final.sub_agent_executions).Nodup
    ∧ ((∀ i ∈ [0, 1], siblingResult cfg2 i = none) →
        ordersOf (run_async_keyed cfg2 [0, 1]).final.sub_agent_executions
          = List.range' 1 [0, 1].length) :=
  c2_completion_orders cfg2 [0, 1]

/-! ## Claim C4 : settlement -/

theorem commits_false_of_no_success (cfg : RunCfg) (order : List Nat)
    (hperm : order.Perm (List.range cfg.decls.length))
    (hc0 : completedCount cfg = 0) : ∀ i ∈ order, ¬ (commits cfg i = true) := by
  intro i hi hc
  have hiN : i ∈ List.range cfg.decls.length := hperm.mem_iff.mp hi
  have hres := commits_result hc
  have hfilter : ((List.range cfg.decls.length).filter
      (fun i => (siblingResult cfg i).isNone)) = [] :=
    List.length_eq_zero.mp hc0
  have := List.filter_eq_nil_iff.mp hfilter i hiN
  simp [hres] at this

/-- Claim C4. At settlement of a keyed-mode fan-out: with at least one
success the workflow is marked COMPLETED and the whole outputs map is merged
into the parent session state in one bulk `update`; with zero successes it is
marked FAILED with the summary message, the outputs map is empty and the
parent state is untouched.  The status is RUNNING at every intermediate
instant of the run (every prefix of the settlement order) and leaves RUNNING
exactly once, to COMPLETED or FAILED. -/
theorem c4_settlement (cfg : RunCfg) (order : List Nat)
    (hmode : keyedMode cfg = true)
    (hperm : order.Perm (List.range cfg.decls.length)) :
    (completedCount cfg > 0 →
      (run_async_keyed cfg order).final.status = .completed
      ∧ (run_async_keyed cfg order).parent
          = dictUpdate cfg.parentState (run_async_keyed cfg order).final.state_data)
    ∧ (completedCount cfg = 0 →
      (run_async_keyed cfg order).final.status = .failed
      ∧ (run_async_keyed cfg order).final.error_message = some "All parallel agents failed"
      ∧ (run_async_keyed cfg order).final.state_data = []
      ∧ (run_async_keyed cfg order).parent = cfg.parentState)
    ∧ (∀ pre, pre <+: order → (runFold cfg pre).status = .running)
    ∧ ((run_async_keyed cfg order).final.status = .completed
        ∨ (run_async_keyed cfg order).final.status = .failed) := by
  refine ⟨?_, ?_, ?_, ?_⟩
  · intro hc
    refine ⟨by rw [run_final_status]; simp [hc], ?_⟩
    rw [run_parent_eq]
    by_cases hsd : (run_async_keyed cfg order).final.state_data ≠ []
    · simp [hsd]
    · push_neg at hsd
      simp [hsd, dictUpdate]
  · intro hc0
    have hnone := commits_false_of_no_success cfg order hperm hc0
    have hsd : (run_async_keyed cfg order).final.state_data = [] := by
      rw [run_final_state]
      rw [List.filter_eq_nil_iff.mpr (by intro i hi; simpa using hnone i hi)]
      rfl
    refine ⟨by rw [run_final_status]; simp [hc0], ?_, hsd, ?_⟩
    · simp [run_async_keyed, hc0, WorkflowState.mark_failed]
    · rw [run_parent_eq, hsd]
      simp
  · intro pre _
    rw [runFold_eq_from, runFoldFrom_status]
    rfl
  · rw [run_final_status]
    by_cases hc : completedCount cfg > 0 <;> simp [hc]

/-- Witness for C4 at the mixed failure/success run. -/
theorem c4_settlement_witness :
    (completedCount cfg2 > 0 →
      (run_async_keyed cfg2 [0, 1]).final.status = .completed
      ∧ (run_async_keyed cfg2 [0, 1]).parent
          = dictUpdate cfg2.parentState (run_async_keyed cfg2 [0, 1]).final.state_data)
    ∧ (completedCount cfg2 = 0 →
      (run_async_keyed cfg2 [0, 1]).final.status = .failed
      ∧ (run_async_keyed cfg2 [0, 1]).final.error_message = some "All parallel agents failed"
      ∧ (run_async_keyed cfg2 [0, 1]).final.state_data = []
      ∧ (run_async_keyed cfg2 [0, 1]).parent = cfg2.parentState)
    ∧ (∀ pre, pre <+: [0, 1] → (runFold cfg2 pre).status = .running)
    ∧ ((run_async_keyed cfg2 [0, 1]).final.status = .completed
        ∨ (run_async_keyed cfg2 [0, 1]).final.status = .failed) :=
  c4_settlement cfg2 [0, 1] (by decide) (by decide)

/-! ## Claim C5 : all-success runs with unique keys -/

theorem commits_of_success (cfg : RunCfg) (i : Nat)
    (hs : siblingResult cfg i = none)
    (ht : truthyKey (cfg.declAt i).output_key = true)
    (hc : collectedOf cfg i ≠ []) : commits cfg i = true := by
  cases ho : cfg.outcomeAt i with
  | failure e => simp [siblingResult, ho] at hs
  | success texts =>
      refine (commits_iff cfg i).mpr ⟨⟨texts, ho⟩, ht, hc, ?_⟩
      by_contra hsz
      simp [siblingResult, ho, ht, hc, Nat.lt_of_not_le hsz] at hs

/-- Configuration for the C5 counterexample: one keyed sibling that succeeds
but yields no text fragment. -/
def cfg5c : RunCfg :=
  { wsid := "sess", user_id := "u", agent_name := "wf", namespace_ := "default",
    parentState := [], decls := [{ name := "a", output_key := some "k" }],
    outcomes := [.success []], now := 0 }

/-- Claim C5, counterexample. A keyed-mode fan-out of `N = 1` sibling with a
declared key and no failure (its task returns normally) in which the sibling
emits no text: no write happens (`if output_key and collected_output`), so the
outputs map is empty, not of size `N`, and the declared key is absent. -/
theorem c5_counterexample :
    cfg5c.decls.length = 1
    ∧ siblingResult cfg5c 0 = none
    ∧ (run_async_keyed cfg5c [0]).final.state_data = []
    ∧ ¬ ((run_async_keyed cfg5c [0]).final.state_data.length = cfg5c.decls.length
        ∧ (dictLookup (run_async_keyed cfg5c [0]).final.state_data
            (keyOf cfg5c 0)).isSome = true) := by
  refine ⟨by decide, by decide, by decide, by decide⟩

/-- Claim C5, amended. For a keyed-mode fan-out of `N` siblings with pairwise
distinct truthy output keys, in which no sibling fails and every sibling
yields at least one non-empty text fragment, the settled outputs map has
exactly `N` entries, and each declared key maps to the joined
output. -/
theorem c5_all_outputs_land (cfg : RunCfg) (order : List Nat)
    (hperm : order.Perm (List.range cfg.decls.length))
    (hsucc : ∀ i, i < cfg.decls.length → siblingResult cfg i = none)
    (hkeys : ∀ i, i < cfg.decls.length → truthyKey (cfg.declAt i).output_key = true)
    (hfrag : ∀ i, i < cfg.decls.length → collectedOf cfg i ≠ [])
    (hdist : ∀ i, i < cfg.decls.length → ∀ j, j < cfg.decls.length → i ≠ j →
      keyOf cfg i ≠ keyOf cfg j) :
    (run_async_keyed cfg order).final.state_data.length = cfg.decls.length
    ∧ ∀ i, i < cfg.decls.length →
        dictLookup (run_async_keyed cfg order).final.state_data (keyOf cfg i)
          = some (outputValueOf cfg i) := by
  have hmemN : ∀ i ∈ order, i < cfg.decls.length := by
    intro i hi
    exact List.mem_range.mp (hperm.mem_iff.mp hi)
  have hall : ∀ i ∈ order, commits cfg i = true := by
    intro i hi
    exact commits_of_success cfg i (hsucc i (hmemN i hi)) (hkeys i (hmemN i hi))
      (hfrag i (hmemN i hi))
  have hfe : order.filter (fun i => commits cfg i) = order :=
    List.filter_eq_self.mpr (fun i hi => by simpa using hall i hi)
  have hnd : order.Nodup := hperm.nodup_iff.mpr (List.nodup_range _)
  have hlen : order.length = cfg.decls.length := by
    simpa using hperm.length_eq
  constructor
  · rw [run_final_state, hfe]
    rw [foldl_dictSet_length cfg order [] (fun i _ => rfl)
      (fun i hi j hj hij => hdist i (hmemN i hi) j (hmemN j hj) hij) hnd]
    simpa using hlen
  · intro i hiN
    have hio : i ∈ order := hperm.mem_iff.mpr (List.mem_range.mpr hiN)
    rw [run_final_state, hfe]
    exact foldl_dictSet_found cfg order [] i hio
      (fun j hj hji => hdist j (hmemN j hj) i hiN hji)

/-- Configuration for the C5 witness: two keyed siblings, both with output. -/
def cfg5 : RunCfg :=
  { wsid := "sess", user_id := "u", agent_name := "wf", namespace_ := "default",
    parentState := [], decls := [{ name := "a", output_key := some "ka" },
                                 { name := "b", output_key := some "kb" }],
    outcomes := [.success ["x"], .success ["y", "z"]], now := 0 }

/-- Witness for C5 (amended): two siblings, settled in reversed order. -/
theorem c5_all_outputs_land_witness :
    (run_async_keyed cfg5 [1, 0]).final.state_data.length = cfg5.decls.length
    ∧ ∀ i, i < cfg5.decls.length →
        dictLookup (run_async_keyed cfg5 [1, 0]).final.state_data (keyOf cfg5 i)
          = some (outputValueOf cfg5 i) :=
  c5_all_outputs_land cfg5 [1, 0] (by decide) (by decide) (by decide) (by decide)
    (by decide)

/-! ## Claim C6 : one sibling fails, others unaffected -/

/-- Claim C6. When sibling `i0`'s body raises with message `e` in a keyed-mode
fan-out (pairwise distinct truthy keys): every scheduled sibling still
settles (one record per settle, indices of the record list are exactly the
settlement order, `N` in total); the record for `i0` has `status = "failed"`,
the captured error text, a null completion order and its declared key; the
outputs map has no entry under `i0`'s key; a failure event for `i0` is in the
caller-side event stream; and the output of every committing sibling still lands. -/
theorem c6_failure_isolated (cfg : RunCfg) (order : List Nat) (i0 : Nat) (e : String)
    (hperm : order.Perm (List.range cfg.decls.length))
    (hi0 : i0 < cfg.decls.length)
    (hfail : cfg.outcomeAt i0 = .failure e)
    (hkey0 : truthyKey (cfg.declAt i0).output_key = true)
    (hdist : ∀ i, i < cfg.decls.length → ∀ j, j < cfg.decls.length → i ≠ j →
      truthyKey (cfg.declAt i).output_key = true →
      truthyKey (cfg.declAt j).output_key = true → keyOf cfg i ≠ keyOf cfg j) :
    ((run_async_keyed cfg order).final.sub_agent_executions.map (fun r => r.index) = order)
    ∧ (run_async_keyed cfg order).final.sub_agent_executions.length = cfg.decls.length
    ∧ (∀ p r, ((run_async_keyed cfg order).final.sub_agent_executions).get? p = some r →
        r.index = i0 → r.status = "failed" ∧ r.error = some e
          ∧ r.completion_order = none ∧ r.output_key = (cfg.declAt i0).output_key)
    ∧ dictLookup (run_async_keyed cfg order).final.state_data (keyOf cfg i0) = none
    ∧ WEvent.errorEvent cfg.agent_name
        ("Error in sub-agent " ++ (cfg.declAt i0).name ++ ": " ++ e) "SUB_AGENT_ERROR" e
        ∈ (run_async_keyed cfg order).events
    ∧ (∀ j, j < cfg.decls.length → commits cfg j = true →
        dictLookup (run_async_keyed cfg order).final.state_data (keyOf cfg j)
          = some (outputValueOf cfg j)) := by
  have hex := run_final_execs cfg order
  have hmemN : ∀ i ∈ order, i < cfg.decls.length := by
    intro i hi
    exact List.mem_range.mp (hperm.mem_iff.mp hi)
  have hc0 : commits cfg i0 = false := by simp [commits, hfail]
  have hfiltmem : ∀ j ∈ order.filter (fun i => commits cfg i),
      j ∈ order ∧ commits cfg j = true := by
    intro j hj
    have := List.mem_filter.mp hj
    exact ⟨this.1, by simpa using this.2⟩
  refine ⟨?_, ?_, ?_, ?_, ?_, ?_⟩
  · rw [hex]; exact mapRecs_indices cfg order 0
  · rw [hex, mapRecs_length]
    simpa using hperm.length_eq
  · intro p r hpr hidx
    rw [hex] at hpr
    have hr := mapRecs_getq cfg order 0 p r hpr
    simp only [Nat.zero_add] at hr
    have hio : order.getD p 0 = i0 := by
      rw [hr] at hidx
      rw [← hidx, recAt_index]
    rw [hr, hio]
    exact recAt_of_failure cfg i0 p e hfail
  · rw [run_final_state]
    rw [foldl_dictSet_absent cfg _ [] (keyOf cfg i0) ?_]
    · rfl
    · intro j hj
      obtain ⟨hjo, hjc⟩ := hfiltmem j hj
      have hjN := hmemN j hjo
      have hji0 : j ≠ i0 := by
        intro h
        rw [h] at hjc
        rw [hc0] at hjc
        cases hjc
      exact hdist j hjN i0 hi0 hji0 ((commits_iff cfg j).mp hjc).2.1 hkey0
  · rw [run_events_eq]
    simp only [eventsOf, List.mem_flatMap]
    refine ⟨i0, List.mem_range.mpr hi0, ?_⟩
    simp [siblingResult, hfail]
  · intro j hjN hjc
    have hjo : j ∈ order := hperm.mem_iff.mpr (List.mem_range.mpr hjN)
    rw [run_final_state]
    refine foldl_dictSet_found cfg _ [] j (List.mem_filter.mpr ⟨hjo, by simpa using hjc⟩) ?_
    intro j2 hj2 hne
    obtain ⟨hj2o, hj2c⟩ := hfiltmem j2 hj2
    exact hdist j2 (hmemN j2 hj2o) j hjN hne ((commits_iff cfg j2).mp hj2c).2.1
      ((commits_iff cfg j).mp hjc).2.1

/-- Witness for C6 at the mixed run: sibling 0 fails with error `boom`,
sibling 1 still commits. -/
theorem c6_failure_isolated_witness :
    ((run_async_keyed cfg2 [0, 1]).final.sub_agent_executions.map (fun r => r.index) = [0, 1])
    ∧ (run_async_keyed cfg2 [0, 1]).final.sub_agent_executions.length = cfg2.decls.length
    ∧ (∀ p r, ((run_async_keyed cfg2 [0, 1]).final.sub_agent_executions).get? p = some r →
        r.index = 0 → r.status = "failed" ∧ r.error = some "boom"
          ∧ r.completion_order = none ∧ r.output_key = (cfg2.declAt 0).output_key)
    ∧ dictLookup (run_async_keyed cfg2 [0, 1]).final.state_data (keyOf cfg2 0) = none
    ∧ WEvent.errorEvent cfg2.agent_name
        ("Error in sub-agent " ++ (cfg2.declAt 0).name ++ ": " ++ "boom")
        "SUB_AGENT_ERROR" "boom" ∈ (run_async_keyed cfg2 [0, 1]).events
    ∧ (∀ j, j < cfg2.decls.length → commits cfg2 j = true →
        dictLookup (run_async_keyed cfg2 [0, 1]).final.state_data (keyOf cfg2 j)
          = some (outputValueOf cfg2 j)) :=
  c6_failure_isolated cfg2 [0, 1] 0 "boom" (by decide) (by decide) (by decide)
    (by decide)
    (by
      intro i hi j hj hne hti htj
      have hi2 : i < 2 := by simpa [cfg2] using hi
      have hj2 : j < 2 := by simpa [cfg2] using hj
      interval_cases i <;> interval_cases j <;>
        first
          | exact absurd rfl hne
          | decide)

/-! ## Claim C3 : duplicate output keys -/

theorem findDup_aux : ∀ (l seen dups : List String) (k : String),
    (k ∈ (l.foldl (fun (p : List String × List String) k =>
      if k ∈ p.1 then (p.1, if k ∈ p.2 then p.2 else p.2 ++ [k])
      else (p.1 ++ [k], p.2)) (seen, dups)).2)
    ↔ (k ∈ dups ∨ (k ∈ seen ∧ k ∈ l) ∨ 2 ≤ l.count k) := by
  intro l
  induction l with
  | nil =>
      intro seen dups k
      simp
  | cons x rest ih =>
      intro seen dups k
      have hfold : ((x :: rest).foldl (fun (p : List String × List String) k =>
          if k ∈ p.1 then (p.1, if k ∈ p.2 then p.2 else p.2 ++ [k])
          else (p.1 ++ [k], p.2)) (seen, dups))
        = (rest.foldl (fun (p : List String × List String) k =>
          if k ∈ p.1 then (p.1, if k ∈ p.2 then p.2 else p.2 ++ [k])
          else (p.1 ++ [k], p.2))
          (if x ∈ seen then (seen, if x ∈ dups then dups else dups ++ [x])
           else (seen ++ [x], dups))) := rfl
      rw [hfold]
      have hmemrest : k ∈ rest ↔ 1 ≤ rest.count k := by
        rw [← List.count_pos_iff_mem]
        omega
      by_cases hx : x ∈ seen
      · rw [if_pos hx]
        rw [ih]
        have hdups2 : (k ∈ (if x ∈ dups then dups else dups ++ [x])) ↔ (k ∈ dups ∨ k = x) := by
          by_cases hxd : x ∈ dups
          · rw [if_pos hxd]
            constructor
            · exact Or.inl
            · rintro (h | h)
              · exact h
              · exact h ▸ hxd
          · rw [if_neg hxd]
            simp
        rw [hdups2]
        by_cases hkx : k = x
        · subst hkx
          constructor
          · rintro ((h | _) | _ | h)
            · exact Or.inl h
            · exact Or.inr (Or.inl ⟨hx, List.mem_cons_self k rest⟩)
            · exact Or.inr (Or.inl ⟨hx, List.mem_cons_self k rest⟩)
            · refine Or.inr (Or.inr ?_)
              rw [List.count_cons_self]
              omega
          · rintro (h | _ | _)
            · exact Or.inl (Or.inl h)
            · exact Or.inl (Or.inr rfl)
            · exact Or.inl (Or.inr rfl)
        · have hcnt : (x :: rest).count k = rest.count k := List.count_cons_of_ne hkx rest
          constructor
          · rintro ((h | h) | ⟨hs, hr⟩ | h)
            · exact Or.inl h
            · exact absurd h hkx
            · exact Or.inr (Or.inl ⟨hs, List.mem_cons_of_mem x hr⟩)
            · refine Or.inr (Or.inr ?_)
              rw [hcnt]
              exact h
          · rintro (h | ⟨hs, hxr⟩ | h)
            · exact Or.inl (Or.inl h)
            · rcases List.mem_cons.mp hxr with h2 | h2
              · exact absurd h2 hkx
              · exact Or.inr (Or.inl ⟨hs, h2⟩)
            · rw [hcnt] at h
              exact Or.inr (Or.inr h)
      · rw [if_neg hx]
        rw [ih]
        by_cases hkx : k = x
        · subst hkx
          constructor
          · rintro (h | ⟨_, hr⟩ | h)
            · exact Or.inl h
            · refine Or.inr (Or.inr ?_)
              rw [List.count_cons_self]
              have := hmemrest.mp hr
              omega
            · refine Or.inr (Or.inr ?_)
              rw [List.count_cons_self]
              omega
          · rintro (h | ⟨hs, _⟩ | h)
            · exact Or.inl h
            · exact absurd hs hx
            · rw [List.count_cons_self] at h
              have hr : k ∈ rest := hmemrest.mpr (by omega)
              exact Or.inr (Or.inl ⟨List.mem_append.mpr (Or.inr (by simp)), hr⟩)
        · have hcnt : (x :: rest).count k = rest.count k := List.count_cons_of_ne hkx rest
          constructor
          · rintro (h | ⟨hs, hr⟩ | h)
            · exact Or.inl h
            · rcases List.mem_append.mp hs with h2 | h2
              · exact Or.inr (Or.inl ⟨h2, List.mem_cons_of_mem x hr⟩)
              · simp at h2
                exact absurd h2 hkx
            · refine Or.inr (Or.inr ?_)
              rw [hcnt]
              exact h
          · rintro (h | ⟨hs, hxr⟩ | h)
            · exact Or.inl h
            · rcases List.mem_cons.mp hxr with h2 | h2
              · exact absurd h2 hkx
              · exact Or.inr (Or.inl ⟨List.mem_append.mpr (Or.inl hs), h2⟩)
            · rw [hcnt] at h
              exact Or.inr (Or.inr h)

/-- `findDuplicates` lists exactly the values appearing at least twice. -/
theorem findDuplicates_spec (l : List String) (k : String) :
    k ∈ findDuplicates l ↔ 2 ≤ l.count k := by
  rw [findDuplicates, findDup_aux l [] [] k]
  simp

theorem dedup_length_iff (l : List String) : l.dedup.length = l.length ↔ l.Nodup := by
  constructor
  · intro h
    have := (List.dedup_sublist l).eq_of_length h
    rw [← this]
    exact List.nodup_dedup l
  · intro h
    rw [List.Nodup.dedup h]

/-- Configuration for the C3 counterexample: two siblings declaring the same
output key, both succeeding. -/
def cfgDup : RunCfg :=
  { wsid := "sess", user_id := "u", agent_name := "wf", namespace_ := "default",
    parentState := [], decls := [{ name := "a", output_key := some "k" },
                                 { name := "b", output_key := some "k" }],
    outcomes := [.success ["va"], .success ["vb"]], now := 0 }

/-- Claim C3, counterexample. Two siblings of one keyed-mode fan-out declare
the same output key, yet the fan-out does not fail: `run_async` never invokes
the uniqueness check, both sub-task bodies run to settlement (two execution
records, two success events, no error event) and WorkflowState writes occur —
the second settling sibling silently overwrites the first. -/
theorem c3_counterexample :
    keyedMode cfgDup = true
    ∧ collectKeys cfgDup.decls = ["k", "k"]
    ∧ (run_async_keyed cfgDup [0, 1]).final.sub_agent_executions.length = 2
    ∧ (run_async_keyed cfgDup [0, 1]).final.state_data = [("k", "vb")]
    ∧ (run_async_keyed cfgDup [0, 1]).events = [WEvent.sub 0, WEvent.sub 1]
    ∧ (run_async_keyed cfgDup [0, 1]).final.status = .completed := by
  refine ⟨by decide, by decide, by decide, by decide, by decide, by decide⟩

/-- Claim C3, amended. The uniqueness check `validate_unique_output_keys`
accepts sibling lists whose truthy keys are pairwise distinct and otherwise
raises a single error whose duplicate set enumerates exactly the key values
that occur more than once (not just the first).  The fan-out itself, however,
never invokes this check: every scheduled sibling settles regardless of
duplicated keys (one execution record per settle, no validation failure). -/
theorem c3_duplicate_keys (sub_agents : List SubAgentDecl) :
    ((collectKeys sub_agents).Nodup → validate_unique_output_keys sub_agents = .ok ())
    ∧ (¬ (collectKeys sub_agents).Nodup →
        ∃ emsg, validate_unique_output_keys sub_agents = .error emsg
          ∧ ∀ k, k ∈ findDuplicates (collectKeys sub_agents)
              ↔ 2 ≤ (collectKeys sub_agents).count k)
    ∧ (∀ (cfg : RunCfg) (order : List Nat),
        (run_async_keyed cfg order).final.sub_agent_executions.length = order.length) := by
  refine ⟨?_, ?_, ?_⟩
  · intro hnd
    have : (collectKeys sub_agents).dedup.length = (collectKeys sub_agents).length :=
      (dedup_length_iff _).mpr hnd
    simp [validate_unique_output_keys, this]
  · intro hnd
    have : ¬ ((collectKeys sub_agents).dedup.length = (collectKeys sub_agents).length) :=
      fun h => hnd ((dedup_length_iff _).mp h)
    refine ⟨"Duplicate outputKey values found: \x7b" ++ String.intercalate ", "
      ((findDuplicates (collectKeys sub_agents)).map (fun k => sqStr ++ k ++ sqStr))
      ++ "\x7d", ?_, fun k => findDuplicates_spec _ k⟩
    simp only [validate_unique_output_keys]
    rw [if_pos (fun h => this h.symm)]
  · intro cfg order
    rw [run_final_execs, mapRecs_length]

/-- Witness for C3 (amended) at the duplicate-key sibling list. -/
theorem c3_duplicate_keys_witness :
    ((collectKeys cfgDup.decls).Nodup → validate_unique_output_keys cfgDup.decls = .ok ())
    ∧ (¬ (collectKeys cfgDup.decls).Nodup →
        ∃ emsg, validate_unique_output_keys cfgDup.decls = .error emsg
          ∧ ∀ k, k ∈ findDuplicates (collectKeys cfgDup.decls)
              ↔ 2 ≤ (collectKeys cfgDup.decls).count k)
    ∧ (∀ (cfg : RunCfg) (order : List Nat),
        (run_async_keyed cfg order).final.sub_agent_executions.length = order.length) :=
  c3_duplicate_keys cfgDup.decls
